import Mathlib

/-!
# Verification of the delivery-config processor (spinnaker/md-lib-go)

A shallow embedding of the core of `deliveryconfig.go` (plus the pieces of
`export.go` / the moniker types it depends on), together with theorems that
settle the frozen claims about the natural-language specification.

Go strings are modelled as Lean `String`s (byte-wise lexicographic order on
UTF-8 agrees with code-point order, so Go string comparison coincides with
the `String` order used here).  Go slices become `List`s, in-place mutation
becomes functional update, and `nil` pointers become `Option`.
-/

set_option maxHeartbeats 1000000
set_option maxRecDepth 8192

/-! ## Go string primitives

`strings.Split` and the Go string comparison are embedded as computable
functions on `String` (core `String.splitOn`/`String.isPrefixOf` do not
reduce in the kernel).  Go compares strings byte-wise; on UTF-8 this equals
code-point lexicographic order, which is exactly the order of the
underlying character lists, i.e. the standard order on `String`. -/

/-- Split a character list at every occurrence of `c` (the semantics of
`strings.Split` for a single-character separator; never returns `[]`). -/
def splitChar (c : Char) : List Char → List (List Char)
  | [] => [[]]
  | x :: rest =>
    match splitChar c rest with
    | [] => [[]]
    | h :: t => if x = c then [] :: h :: t else (x :: h) :: t

/-- `strings.Split(s, c)` for a single-character separator. -/
def goSplit (s : String) (c : Char) : List String :=
  (splitChar c s.toList).map List.asString

/-- Go string `<`: byte-wise lexicographic comparison, which is the order
on the underlying character list (and is definitionally the standard
`String` order). -/
def goStrLt (a b : String) : Bool :=
  decide (a.toList < b.toList)

/-- `goStrLt` agrees with the standard `String` order. -/
theorem goStrLt_iff_lt (a b : String) : goStrLt a b = true ↔ a < b := by
  rw [goStrLt, decide_eq_true_eq, String.lt_iff_toList_lt]

/-! ## Identity model: `ExportableResource` (export.go) -/

/-- `ExportableResource` from `export.go`: the logical identity of a
deployable resource. -/
structure ExportableResource where
  ResourceType  : String
  CloudProvider : String
  Account       : String
  Name          : String
deriving DecidableEq, Repr

/-- `ExportableResource.HasKind` from the repository: the resource matches a
kind string when the kind starts with `<mappedProvider>/<resourceType>@`,
where provider `aws` maps back to kind prefix `ec2`. -/
def ExportableResource.HasKind (r : ExportableResource) (kind : String) : Bool :=
  let kindProvider := if r.CloudProvider = "aws" then "ec2" else r.CloudProvider
  (kindProvider ++ "/" ++ r.ResourceType ++ "@").toList.isPrefixOf kind.toList

/-! ## Moniker (spinnaker naming metadata) -/

/-- `Moniker` from the repository: identification metadata for a resource. -/
structure Moniker where
  App      : String := ""
  Cluster  : String := ""
  Detail   : String := ""
  Stack    : String := ""
  Sequence : Int := 0
deriving DecidableEq, Repr

/-- Zero-pad a numeral string to width 3, as Go's `%03d` does for
non-negative values. -/
def pad3 (s : String) : String :=
  if s.length < 3 then String.mk (List.replicate (3 - s.length) '0') ++ s else s

/-- `Moniker.String()` from the repository: join the non-empty prefix of
`[App, Stack, Detail]` with `-`, appending `v%03d` of `Sequence` when it is
positive. -/
def Moniker.render (m : Moniker) : String :=
  let parts := ([m.App, m.Stack, m.Detail].takeWhile (fun part => part ≠ ""))
  let parts := if m.Sequence > 0 then parts ++ ["v" ++ pad3 (toString m.Sequence)] else parts
  String.intercalate "-" parts

/-! ## Delivery resource model (deliveryconfig.go) -/

/-- `DeliveryResourceLocationRegion`. -/
structure DeliveryResourceLocationRegion where
  Name : String
deriving DecidableEq, Repr

/-- `DeliveryResourceLocations`. -/
structure DeliveryResourceLocations where
  Account : String := ""
  Regions : List DeliveryResourceLocationRegion := []
deriving DecidableEq, Repr

/-- `DeliveryResourceLocations.Empty()`: true when no account and no regions
are set. -/
def DeliveryResourceLocations.Empty (l : DeliveryResourceLocations) : Bool :=
  l.Account = "" && l.Regions.length = 0

/-- `DeliveryResourceContainer`. -/
structure DeliveryResourceContainer where
  Image              : String := ""
  Organization       : String := ""
  TagVersionStrategy : String := ""
deriving DecidableEq, Repr

/-- The `vmOptions` sub-struct of `DeliveryArtifact`.  Go compares it with
`reflect.DeepEqual`, which is structural equality here. -/
structure VMOptions where
  BaseLabel : String := ""
  BaseOS    : String := ""
  Regions   : List String := []
  StoreType : String := ""
deriving DecidableEq, Repr

/-- The `from.branch` sub-struct of `DeliveryArtifact`. -/
structure ArtifactFromBranch where
  Name       : String := ""
  StartsWith : String := ""
  Regex      : String := ""
deriving DecidableEq, Repr

/-- The `from` sub-struct of `DeliveryArtifact`. -/
structure ArtifactFrom where
  Branch          : ArtifactFromBranch := {}
  PullRequestOnly : Bool := false
deriving DecidableEq, Repr

/-- `DeliveryArtifact` from `deliveryconfig.go`.  The Go field `Type` is
spelled `Type'` because `Type` is reserved in Lean. -/
structure DeliveryArtifact where
  Name               : String := ""
  Type'              : String := ""
  Reference          : String := ""
  TagVersionStrategy : String := ""
  VMOptions          : VMOptions := {}
  From               : ArtifactFrom := {}
deriving DecidableEq, Repr

/-- `DeliveryArtifact.RefName()`: the `Reference` value if set, else the
`Name`. -/
def DeliveryArtifact.RefName (a : DeliveryArtifact) : String :=
  if a.Reference ≠ "" then a.Reference else a.Name

/-- `DeliveryArtifact.Equal(b)`: compares only `TagVersionStrategy` and
`VMOptions` (name and reference are deliberately ignored). -/
def DeliveryArtifact.Equal (a b : DeliveryArtifact) : Bool :=
  if a.TagVersionStrategy ≠ b.TagVersionStrategy then false
  else if a.VMOptions ≠ b.VMOptions then false
  else true

/-- `DeliveryImageProvider`. -/
structure DeliveryImageProvider where
  DeliveryArtifact : DeliveryArtifact := {}
deriving DecidableEq, Repr

/-- `DeliveryResourceSpec`. -/
structure DeliveryResourceSpec where
  Moniker       : Moniker := {}
  Locations     : DeliveryResourceLocations := {}
  ImageProvider : DeliveryImageProvider := {}
  ArtifactName  : String := ""
  Container     : DeliveryResourceContainer := {}
deriving DecidableEq, Repr

/-- `DeliveryResource`. -/
structure DeliveryResource where
  Kind : String := ""
  Spec : DeliveryResourceSpec := {}
deriving DecidableEq, Repr

/-- `DeliveryResource.Name()`: rendered moniker. -/
def DeliveryResource.Name (r : DeliveryResource) : String :=
  r.Spec.Moniker.render

/-- `DeliveryResource.Account()`. -/
def DeliveryResource.Account (r : DeliveryResource) : String :=
  r.Spec.Locations.Account

/-- `DeliveryResource.CloudProvider()`: the first `/`-separated component of
`Kind`, with `ec2` mapped to `aws`.  (`strings.SplitN(kind, "/", 2)` always
returns a non-empty slice, so the `len(parts) == 0` branch is dead.) -/
def DeliveryResource.CloudProvider (r : DeliveryResource) : String :=
  let parts := goSplit r.Kind '/'
  match parts with
  | [] => "unknown-cloud-provider"
  | p0 :: _ => if p0 = "ec2" then "aws" else p0

/-- `DeliveryResource.Match(e)`: kind, cloud provider, account and name all
agree with the exportable-resource identity. -/
def DeliveryResource.Match (r : DeliveryResource) (e : ExportableResource) : Bool :=
  e.HasKind r.Kind && r.CloudProvider = e.CloudProvider
    && r.Account = e.Account && r.Name = e.Name

/-! ## `InsertArtifact` (deliveryconfig.go lines 660-694)

The loop scans the current artifact list.  At the first semantically `Equal`
artifact it returns without appending; otherwise it records whether some
artifact occupies the same `RefName`.  The scan is transcribed as
`insertArtifactScan`; `time.Now().UnixNano()` is passed in explicitly as
`now` since it is an input from the environment. -/

/-- Outcome of the scan loop inside `InsertArtifact`. -/
inductive InsertScanOutcome where
  /-- hit `current.Equal(artifact)` with equal ref names: return `(false, "")`. -/
  | equalSameRef : InsertScanOutcome
  /-- hit `current.Equal(artifact)` with different ref names: alias to the
  existing ref name. -/
  | equalDiffRef (existingRef : String) : InsertScanOutcome
  /-- no `Equal` artifact; `collision` records whether some artifact had the
  same `RefName`. -/
  | noEqual (collision : Bool) : InsertScanOutcome
deriving DecidableEq, Repr

/-- The `for _, current := range p.deliveryConfig.Artifacts` loop of
`InsertArtifact`. -/
def insertArtifactScan (artifact : DeliveryArtifact) :
    List DeliveryArtifact → Bool → InsertScanOutcome
  | [], collision => .noEqual collision
  | current :: rest, collision =>
    if current.Equal artifact then
      if current.RefName = artifact.RefName then .equalSameRef
      else .equalDiffRef current.RefName
    else
      insertArtifactScan artifact rest
        (collision || (current.RefName = artifact.RefName : Bool))

/-- Result of `InsertArtifact`: the two return values, the (possibly
mutated) artifact argument, and the new artifact list. -/
structure InsertArtifactResult where
  added      : Bool
  updatedRef : String
  artifact   : DeliveryArtifact
  artifacts  : List DeliveryArtifact
deriving DecidableEq, Repr

/-- `DeliveryConfigProcessor.InsertArtifact`, restricted to its effect on
the typed artifact list (the parallel append onto the raw `artifacts`
sequence node carries no information used by the claims).  `now` stands for
`time.Now().UnixNano()`. -/
def insertArtifact (artifacts : List DeliveryArtifact)
    (artifact : DeliveryArtifact) (now : Int) : InsertArtifactResult :=
  match insertArtifactScan artifact artifacts false with
  | .equalSameRef => ⟨false, "", artifact, artifacts⟩
  | .equalDiffRef existingRef =>
      ⟨false, existingRef, { artifact with Reference := existingRef }, artifacts⟩
  | .noEqual collision =>
      let artifact :=
        if collision then
          { artifact with Reference := artifact.RefName ++ "-" ++ toString now }
        else artifact
      let updatedRef := if collision then artifact.Reference else ""
      ⟨true, updatedRef, artifact, artifacts ++ [artifact]⟩

/-! ### Helper lemmas about the `InsertArtifact` scan loop -/

/-- If the prefix contains no `Equal` artifact and `a.Equal b`, the scan
stops at `a`, independently of the collision flag accumulated so far. -/
theorem insertArtifactScan_first_equal (b : DeliveryArtifact) :
    ∀ (pre : List DeliveryArtifact), (∀ c ∈ pre, c.Equal b = false) →
    ∀ (a : DeliveryArtifact), a.Equal b = true →
    ∀ (post : List DeliveryArtifact) (col : Bool),
    insertArtifactScan b (pre ++ a :: post) col =
      (if a.RefName = b.RefName then .equalSameRef else .equalDiffRef a.RefName) := by
  intro pre
  induction pre with
  | nil =>
    intro _ a ha post col
    simp [insertArtifactScan, ha]
  | cons c pre ih =>
    intro hpre a ha post col
    have hc : c.Equal b = false := hpre c (by simp)
    simp only [List.cons_append, insertArtifactScan, hc, Bool.false_eq_true, if_false]
    exact ih (fun d hd => hpre d (by simp [hd])) a ha post _

/-- If no artifact in the list is `Equal` to `b`, the scan falls through and
reports whether any artifact shares `b`'s `RefName`. -/
theorem insertArtifactScan_no_equal (b : DeliveryArtifact) :
    ∀ (l : List DeliveryArtifact), (∀ c ∈ l, c.Equal b = false) → ∀ (col : Bool),
    insertArtifactScan b l col =
      .noEqual (col || l.any (fun c => c.RefName = b.RefName)) := by
  intro l
  induction l with
  | nil => intro _ col; simp [insertArtifactScan]
  | cons c rest ih =>
    intro hl col
    have hc : c.Equal b = false := hl c (by simp)
    simp only [insertArtifactScan, hc, Bool.false_eq_true, if_false]
    rw [ih (fun d hd => hl d (by simp [hd]))]
    simp [List.any_cons, Bool.or_assoc, Bool.or_comm]

/-- Appending a non-empty string strictly grows a string, so a ref name
extended by a suffix differs from the original. -/
theorem append_suffix_ne (s t : String) (ht : t.length ≠ 0) : s ++ t ≠ s := by
  intro h
  have := congrArg String.length h
  rw [String.length_append] at this
  omega

/-- C1: with `a` the first artifact in the config that is `Equal` to `b`,
`InsertArtifact(b)` is a pure lookup: it returns `(false, "")` when the ref
names agree, and aliases `b` to `a`'s ref name returning `(false,
a.RefName)` when they differ; in both cases the artifact list is unchanged
(in particular its length is unchanged). -/
theorem insertArtifact_equal_existing
    (pre post : List DeliveryArtifact) (a b : DeliveryArtifact) (now : Int)
    (hpre : ∀ c ∈ pre, c.Equal b = false)
    (heq : a.Equal b = true) :
    (a.RefName = b.RefName →
      (insertArtifact (pre ++ a :: post) b now).added = false ∧
      (insertArtifact (pre ++ a :: post) b now).updatedRef = "" ∧
      (insertArtifact (pre ++ a :: post) b now).artifact = b ∧
      (insertArtifact (pre ++ a :: post) b now).artifacts = pre ++ a :: post)
    ∧ (a.RefName ≠ b.RefName →
      (insertArtifact (pre ++ a :: post) b now).added = false ∧
      (insertArtifact (pre ++ a :: post) b now).updatedRef = a.RefName ∧
      (insertArtifact (pre ++ a :: post) b now).artifact = { b with Reference := a.RefName } ∧
      (insertArtifact (pre ++ a :: post) b now).artifacts = pre ++ a :: post)
    ∧ (insertArtifact (pre ++ a :: post) b now).artifacts.length
        = (pre ++ a :: post).length := by
  have hscan := insertArtifactScan_first_equal b pre hpre a heq post false
  by_cases hr : a.RefName = b.RefName
  · rw [if_pos hr] at hscan
    refine ⟨fun _ => ?_, fun hne => absurd hr hne, ?_⟩ <;>
      simp [insertArtifact, hscan]
  · rw [if_neg hr] at hscan
    refine ⟨fun h => absurd h hr, fun _ => ?_, ?_⟩ <;>
      simp [insertArtifact, hscan]

/-- C1 witness at concrete artifacts. -/
theorem insertArtifact_equal_existing_witness :
    ((insertArtifact [{ Name := "app", Reference := "ref-a" }]
        { Name := "app-two" } 7).added = false ∧
      (insertArtifact [{ Name := "app", Reference := "ref-a" }]
        { Name := "app-two" } 7).updatedRef = "ref-a" ∧
      (insertArtifact [{ Name := "app", Reference := "ref-a" }]
        { Name := "app-two" } 7).artifact
          = { Name := "app-two", Reference := "ref-a" } ∧
      (insertArtifact [{ Name := "app", Reference := "ref-a" }]
        { Name := "app-two" } 7).artifacts
          = [{ Name := "app", Reference := "ref-a" }]) := by
  have h := insertArtifact_equal_existing [] []
    { Name := "app", Reference := "ref-a" } { Name := "app-two" } 7
    (by intro c hc; cases hc) (by decide)
  exact h.2.1 (by decide)

/-- C2: when no artifact is `Equal` to `b` but some artifact occupies `b`'s
`RefName`, `InsertArtifact(b)` mints the reference `b.RefName ++ "-" ++ now`
(the original ref name plus a unique timestamp suffix), appends the renamed
artifact, and returns `(true, newRef)` with `newRef` different from `b`'s
original ref name and from the ref name of every colliding artifact. -/
theorem insertArtifact_refName_collision
    (artifacts : List DeliveryArtifact) (b : DeliveryArtifact) (now : Int)
    (hne : ∀ c ∈ artifacts, c.Equal b = false)
    (hcol : ∃ c ∈ artifacts, c.RefName = b.RefName) :
    (insertArtifact artifacts b now).added = true ∧
    (insertArtifact artifacts b now).updatedRef
        = b.RefName ++ "-" ++ toString now ∧
    (insertArtifact artifacts b now).artifact
        = { b with Reference := b.RefName ++ "-" ++ toString now } ∧
    (insertArtifact artifacts b now).artifacts
        = artifacts ++ [{ b with Reference := b.RefName ++ "-" ++ toString now }] ∧
    (insertArtifact artifacts b now).artifacts.length = artifacts.length + 1 ∧
    (insertArtifact artifacts b now).updatedRef ≠ b.RefName ∧
    (∀ c ∈ artifacts, c.RefName = b.RefName →
      (insertArtifact artifacts b now).updatedRef ≠ c.RefName) := by
  have hscan := insertArtifactScan_no_equal b artifacts hne false
  have hany : artifacts.any (fun c => c.RefName = b.RefName) = true := by
    obtain ⟨c, hc, hcr⟩ := hcol
    exact List.any_eq_true.mpr ⟨c, hc, by simp [hcr]⟩
  rw [hany] at hscan
  simp only [Bool.false_or] at hscan
  have hne' : b.RefName ++ "-" ++ toString now ≠ b.RefName := by
    rw [String.append_assoc]
    apply append_suffix_ne
    rw [String.length_append]
    have h1 : "-".length = 1 := by decide
    omega
  have hres : insertArtifact artifacts b now =
      ⟨true, b.RefName ++ "-" ++ toString now,
        { b with Reference := b.RefName ++ "-" ++ toString now },
        artifacts ++ [{ b with Reference := b.RefName ++ "-" ++ toString now }]⟩ := by
    unfold insertArtifact
    rw [hscan]
    rfl
  rw [hres]
  refine ⟨rfl, rfl, rfl, rfl, by simp, hne', ?_⟩
  intro c _ hcr
  rw [hcr]
  exact hne'

/-- C2 witness at concrete artifacts (same `RefName`, different metadata). -/
theorem insertArtifact_refName_collision_witness :
    (insertArtifact [{ Name := "app", TagVersionStrategy := "increasing-tag" }]
        { Name := "app" } 99).added = true ∧
      (insertArtifact [{ Name := "app", TagVersionStrategy := "increasing-tag" }]
        { Name := "app" } 99).updatedRef = "app-99" ∧
      (insertArtifact [{ Name := "app", TagVersionStrategy := "increasing-tag" }]
        { Name := "app" } 99).updatedRef ≠ "app" := by
  have h := insertArtifact_refName_collision
    [{ Name := "app", TagVersionStrategy := "increasing-tag" }] { Name := "app" } 99
    (by intro c hc; simp at hc; subst hc; decide)
    ⟨{ Name := "app", TagVersionStrategy := "increasing-tag" }, by simp, by decide⟩
  refine ⟨h.1, ?_, ?_⟩
  · rw [h.2.1]; decide
  · rw [h.2.1]; decide

/-! ## `DeliveryResource.ResourceType` (deliveryconfig.go lines 139-145)

`ResourceType` computes `kind[left+1 : right]` with `left =
strings.Index(kind, "/")` and `right = strings.LastIndex(kind, "@")`.  Both
index functions return `-1` when the separator is absent, and the Go slice
expression panics unless `0 <= low <= high <= len`.  The kind string is
modelled as a `List Char` (byte and rune indices agree on the ASCII kind
strings this code handles), and the panic branch is modelled as `none`. -/

/-- `strings.Index` for a single-character separator: index of the first
occurrence, `-1` if absent. -/
def goIndex (c : Char) (l : List Char) : Int :=
  match l.findIdx? (fun x => x = c) with
  | some i => (i : Int)
  | none => -1

/-- `strings.LastIndex` for a single-character separator: index of the last
occurrence, `-1` if absent. -/
def goLastIndex (c : Char) (l : List Char) : Int :=
  match l.reverse.findIdx? (fun x => x = c) with
  | some i => (l.length : Int) - 1 - i
  | none => -1

/-- Go slice expression `s[low:high]`: defined when `0 ≤ low ≤ high ≤ len`,
a runtime panic (`none`) otherwise. -/
def goSlice (l : List Char) (low high : Int) : Option (List Char) :=
  if 0 ≤ low ∧ low ≤ high ∧ high ≤ (l.length : Int) then
    some ((l.drop low.toNat).take (high - low).toNat)
  else none

/-- `DeliveryResource.ResourceType()`: slice strictly between the first `/`
and the last `@` of the kind string. -/
def resourceTypeOf (kind : List Char) : Option (List Char) :=
  let left := goIndex '/' kind
  let right := goLastIndex '@' kind
  goSlice kind (left + 1) right

/-! ### Index lemmas -/

/-- First-occurrence index across an append whose prefix misses the key. -/
theorem findIdxQ_append_cons (c : Char) (pre rest : List Char) (h : c ∉ pre) :
    (pre ++ c :: rest).findIdx? (fun x => x = c) = some pre.length := by
  induction pre with
  | nil => simp [List.findIdx?]
  | cons a pre ih =>
    have ha : (a = c) = False := by
      simp only [eq_iff_iff, iff_false]
      intro hac
      exact h (hac ▸ List.mem_cons_self a pre)
    have hrec := ih (fun hc => h (List.mem_cons_of_mem a hc))
    simp [List.findIdx?_cons, ha, hrec]

/-- `findIdx?` misses entirely when the key is absent. -/
theorem findIdxQ_none (c : Char) (l : List Char) (h : c ∉ l) :
    l.findIdx? (fun x => x = c) = none := by
  induction l with
  | nil => rfl
  | cons a l ih =>
    have ha : (a = c) = False := by
      simp only [eq_iff_iff, iff_false]
      intro hac
      exact h (hac ▸ List.mem_cons_self a l)
    simp [List.findIdx?_cons, ha, ih (fun hc => h (List.mem_cons_of_mem a hc))]

/-- `goIndex` of a decomposition at the first occurrence. -/
theorem goIndex_append_cons (c : Char) (pre rest : List Char) (h : c ∉ pre) :
    goIndex c (pre ++ c :: rest) = (pre.length : Int) := by
  simp [goIndex, findIdxQ_append_cons c pre rest h]

/-- `goIndex` is `-1` when the character is absent. -/
theorem goIndex_not_mem (c : Char) (l : List Char) (h : c ∉ l) :
    goIndex c l = -1 := by
  simp [goIndex, findIdxQ_none c l h]

/-- `goLastIndex` of a decomposition at the last occurrence. -/
theorem goLastIndex_append_cons (c : Char) (pre post : List Char) (h : c ∉ post) :
    goLastIndex c (pre ++ c :: post) = (pre.length : Int) := by
  have hrev : (pre ++ c :: post).reverse = post.reverse ++ c :: pre.reverse := by
    simp
  have hmem : c ∉ post.reverse := by simpa using h
  simp only [goLastIndex, hrev, findIdxQ_append_cons c _ _ hmem]
  simp
  omega

/-- `goLastIndex` is `-1` when the character is absent. -/
theorem goLastIndex_not_mem (c : Char) (l : List Char) (h : c ∉ l) :
    goLastIndex c l = -1 := by
  have : c ∉ l.reverse := by simpa using h
  simp [goLastIndex, findIdxQ_none c _ this]

/-- `goIndex` never returns less than `-1`. -/
theorem goIndex_ge_neg_one (c : Char) (l : List Char) : -1 ≤ goIndex c l := by
  unfold goIndex
  cases l.findIdx? (fun x => x = c) with
  | none => simp
  | some i => simp; omega

/-- C10 counterexample: for the kind `"ec2/cluster"` (no `@` separator) the
slice taken by `ResourceType()` has bounds `low = 4`, `high = -1`, which is
out of range, so the embedded slice hits its panic branch (`none`) — the
claim that evaluation is in-bounds for every kind string fails here. -/
theorem resourceType_no_at_panics :
    resourceTypeOf "ec2/cluster".toList = none
      ∧ goIndex '/' "ec2/cluster".toList + 1 = 4
      ∧ goLastIndex '@' "ec2/cluster".toList = -1 := by
  refine ⟨by decide, by decide, by decide⟩

/-- C10 (amended): `ResourceType()` performs in-bounds indexing and returns
the substring strictly between the first `/` and the last `@` whenever the
kind contains an `@` whose last occurrence is not before the first `/`
(with the start position falling back to `0` when `/` is absent); when the
kind contains no `@` at all the slice bounds are out of range and the
indexing needs the out-of-range (panic) branch. -/
theorem resourceType_characterization :
    (∀ (pre mid post : List Char), '/' ∉ pre → '@' ∉ post →
      resourceTypeOf (pre ++ '/' :: (mid ++ '@' :: post)) = some mid)
    ∧ (∀ (mid post : List Char), '/' ∉ mid ++ '@' :: post → '@' ∉ post →
      resourceTypeOf (mid ++ '@' :: post) = some mid)
    ∧ (∀ (kind : List Char), '@' ∉ kind → resourceTypeOf kind = none) := by
  refine ⟨?_, ?_, ?_⟩
  · intro pre mid post hpre hpost
    have hleft : goIndex '/' (pre ++ '/' :: (mid ++ '@' :: post)) = (pre.length : Int) :=
      goIndex_append_cons '/' pre _ hpre
    have hassoc : pre ++ '/' :: (mid ++ '@' :: post)
        = (pre ++ '/' :: mid) ++ '@' :: post := by simp
    have hright : goLastIndex '@' (pre ++ '/' :: (mid ++ '@' :: post))
        = ((pre.length + 1 + mid.length : Nat) : Int) := by
      rw [hassoc, goLastIndex_append_cons '@' _ post hpost]
      simp
      omega
    unfold resourceTypeOf
    rw [hleft, hright]
    unfold goSlice
    rw [if_pos]
    · have hdrop : (pre ++ '/' :: (mid ++ '@' :: post)).drop
          ((pre.length : Int) + 1).toNat = mid ++ '@' :: post := by
        have h1 : pre ++ '/' :: (mid ++ '@' :: post)
            = (pre ++ ['/']) ++ (mid ++ '@' :: post) := by simp
        have h2 : ((pre.length : Int) + 1).toNat = (pre ++ ['/']).length := by
          simp
        rw [h1, h2, List.drop_left]
      have htake : (((pre.length + 1 + mid.length : Nat) : Int)
          - ((pre.length : Int) + 1)).toNat = mid.length := by omega
      rw [hdrop, htake]
      have h3 : mid ++ '@' :: post = mid ++ ('@' :: post) := rfl
      rw [h3, List.take_left]
    · constructor
      · omega
      constructor
      · omega
      · simp
        omega
  · intro mid post hslash hpost
    have hleft : goIndex '/' (mid ++ '@' :: post) = -1 :=
      goIndex_not_mem '/' _ hslash
    have hright : goLastIndex '@' (mid ++ '@' :: post) = (mid.length : Int) :=
      goLastIndex_append_cons '@' mid post hpost
    unfold resourceTypeOf
    rw [hleft, hright]
    unfold goSlice
    rw [if_pos]
    · simp
    · constructor
      · omega
      constructor
      · omega
      · simp
        omega
  · intro kind hat
    have hright : goLastIndex '@' kind = -1 := goLastIndex_not_mem '@' kind hat
    have hleft := goIndex_ge_neg_one '/' kind
    unfold resourceTypeOf
    rw [hright]
    unfold goSlice
    rw [if_neg]
    intro ⟨h1, h2, h3⟩
    omega

/-- C10 witness: the canonical kind `"ec2/cluster@v1"` slices to
`"cluster"`. -/
theorem resourceType_characterization_witness :
    resourceTypeOf ("ec2".toList ++ '/' :: ("cluster".toList ++ '@' :: "v1".toList))
      = some "cluster".toList :=
  resourceType_characterization.1 "ec2".toList "cluster".toList "v1".toList
    (by decide) (by decide)

/-! ## `Diff` result ordering (deliveryconfig.go lines 835-843)

The network half of `Diff` (HTTP POST, JSON parsing) is an external
collaborator; what the repository itself computes is the flattening and the
`sort.Slice` ordering of the parsed diffs.  `sort.Slice` with comparator
`less` is modelled as an insertion sort driven by the same comparator. -/

/-- `ResourceDiff`: one field-level difference record. -/
structure ResourceDiff where
  State   : String := ""
  Desired : String := ""
  Current : String := ""
deriving DecidableEq, Repr

/-- `ManagedResourceDiff`: per-resource diff summary (the `diff` map is a
key-ordered association list here). -/
structure ManagedResourceDiff where
  Status     : String := ""
  ResourceID : String := ""
  Resource   : DeliveryResource := {}
  Diffs      : List (String × ResourceDiff) := []
deriving DecidableEq, Repr

/-- The comparator passed to `sort.Slice` inside `Diff`: when the *first*
colon-separated segments agree, both IDs have more than two segments, and
the third segments differ, order by the third segment; otherwise order by
the full resource ID. -/
def diffSortLess (a b : ManagedResourceDiff) : Bool :=
  let idPartsI := goSplit a.ResourceID ':'
  let idPartsJ := goSplit b.ResourceID ':'
  if idPartsI.headD "" = idPartsJ.headD "" && idPartsI.length > 2
      && idPartsJ.length > 2 && idPartsI.getD 2 "" ≠ idPartsJ.getD 2 "" then
    goStrLt (idPartsI.getD 2 "") (idPartsJ.getD 2 "")
  else
    goStrLt a.ResourceID b.ResourceID

/-- Insert into a list keeping earlier elements that the comparator places
first (the insertion step of the model of `sort.Slice`). -/
def sortSliceInsert (less : α → α → Bool) (x : α) : List α → List α
  | [] => [x]
  | y :: l => if less y x then y :: sortSliceInsert less x l else x :: y :: l

/-- Comparison sort driven by a `less` comparator, modelling `sort.Slice`. -/
def sortSlice (less : α → α → Bool) : List α → List α
  | [] => []
  | x :: l => sortSliceInsert less x (sortSlice less l)

/-- The ordering pass of `DeliveryConfigProcessor.Diff`. -/
def sortDiffs (l : List ManagedResourceDiff) : List ManagedResourceDiff :=
  sortSlice diffSortLess l

/-- The claimed trigger of the exceptional ordering: IDs sharing segments 1
and 2 (a colon-delimited prefix up to segment 2), both with at least three
segments, differing in segment 3. -/
def sharesPrefixUpToSeg2 (x y : String) : Prop :=
  (goSplit x ':').headD "" = (goSplit y ':').headD ""
    ∧ (goSplit x ':').getD 1 "" = (goSplit y ':').getD 1 ""
    ∧ 2 < (goSplit x ':').length ∧ 2 < (goSplit y ':').length
    ∧ (goSplit x ':').getD 2 "" ≠ (goSplit y ':').getD 2 ""

instance (x y : String) : Decidable (sharesPrefixUpToSeg2 x y) := by
  unfold sharesPrefixUpToSeg2; infer_instance

/-- The trigger the code actually uses: only segment 1 must agree. -/
def sharesFirstSegment (x y : String) : Prop :=
  (goSplit x ':').headD "" = (goSplit y ':').headD ""
    ∧ 2 < (goSplit x ':').length ∧ 2 < (goSplit y ':').length
    ∧ (goSplit x ':').getD 2 "" ≠ (goSplit y ':').getD 2 ""

instance (x y : String) : Decidable (sharesFirstSegment x y) := by
  unfold sharesFirstSegment; infer_instance

/-- C6 counterexample: `"cluster:alpha:prod"` sorts lexicographically before
`"cluster:beta:dev"`, and the two IDs do **not** share a prefix up to
segment 2, so the claimed ordering would keep them in lexicographic order;
the code nevertheless orders `"cluster:beta:dev"` first, because its
exception fires whenever only the first segments agree. -/
theorem diffSort_seg1_counterexample :
    sortDiffs [{ ResourceID := "cluster:alpha:prod" }, { ResourceID := "cluster:beta:dev" }]
        = [{ ResourceID := "cluster:beta:dev" }, { ResourceID := "cluster:alpha:prod" }]
      ∧ goStrLt "cluster:alpha:prod" "cluster:beta:dev" = true
      ∧ ¬ sharesPrefixUpToSeg2 "cluster:alpha:prod" "cluster:beta:dev" := by
  refine ⟨by decide, by decide, by decide⟩

/-- The insertion step of `sortSlice` permutes. -/
theorem sortSliceInsert_perm (less : α → α → Bool) (x : α) :
    ∀ (l : List α), (sortSliceInsert less x l).Perm (x :: l) := by
  intro l
  induction l with
  | nil => exact List.Perm.refl [x]
  | cons y l ih =>
    by_cases h : less y x = true
    · rw [sortSliceInsert, if_pos h]
      exact (ih.cons y).trans (List.Perm.swap x y l)
    · rw [sortSliceInsert, if_neg h]

/-- `sortSlice` permutes its input. -/
theorem sortSlice_perm (less : α → α → Bool) :
    ∀ (l : List α), (sortSlice less l).Perm l := by
  intro l
  induction l with
  | nil => exact List.Perm.refl []
  | cons x l ih =>
    exact (sortSliceInsert_perm less x (sortSlice less l)).trans (ih.cons x)

/-- C6 (amended): the sort of `Diff` is a permutation of its input, and its
comparator orders a pair by segment 3 exactly when the *first* segments
agree, both IDs have at least three colon-separated segments and the third
segments differ; every other pair is ordered by full lexicographic
comparison of the IDs. -/
theorem diffSort_comparator_characterization :
    (∀ (l : List ManagedResourceDiff), (sortDiffs l).Perm l)
    ∧ (∀ (a b : ManagedResourceDiff),
        diffSortLess a b = true ↔
          ((sharesFirstSegment a.ResourceID b.ResourceID
              ∧ (goSplit a.ResourceID ':').getD 2 "" < (goSplit b.ResourceID ':').getD 2 "")
            ∨ (¬ sharesFirstSegment a.ResourceID b.ResourceID
              ∧ a.ResourceID < b.ResourceID))) := by
  refine ⟨fun l => sortSlice_perm diffSortLess l, fun a b => ?_⟩
  unfold diffSortLess
  by_cases hshare : sharesFirstSegment a.ResourceID b.ResourceID
  · obtain ⟨h1, h2, h3, h4⟩ := hshare
    rw [if_pos]
    · rw [goStrLt_iff_lt]
      constructor
      · intro h
        exact Or.inl ⟨⟨h1, h2, h3, h4⟩, h⟩
      · rintro (⟨_, h⟩ | ⟨hn, _⟩)
        · exact h
        · exact absurd ⟨h1, h2, h3, h4⟩ hn
    · simp only [Bool.and_eq_true, decide_eq_true_eq, gt_iff_lt, ne_eq,
        Bool.not_eq_true', decide_eq_false_iff_not]
      exact ⟨⟨⟨h1, h2⟩, h3⟩, h4⟩
  · rw [if_neg]
    · rw [goStrLt_iff_lt]
      constructor
      · intro h
        exact Or.inr ⟨hshare, h⟩
      · rintro (⟨hs, _⟩ | ⟨_, h⟩)
        · exact absurd hs hshare
        · exact h
    · intro hcond
      apply hshare
      simp only [Bool.and_eq_true, decide_eq_true_eq, gt_iff_lt, ne_eq] at hcond
      obtain ⟨⟨⟨c1, c2⟩, c3⟩, c4⟩ := hcond
      exact ⟨c1, by exact_mod_cast c2, by exact_mod_cast c3, c4⟩

/-! ## The raw document tree (`yaml.Node` + walky operations)

`yaml.Node` is modelled structurally: scalars carry their string value,
mappings carry key/value pairs (`Content` stores keys at even indices and
values at odd indices; a pair list is the same data), sequences and
documents carry child lists.  The walky helpers (`GetKey`, `HasKey`,
`AssignMapNode`, `AppendNode`) resolve a document node to its first child,
look keys up by scalar value, replace-or-append on assignment, and append
to sequences; pointer-based in-place mutation becomes functional update. -/

/-- Structural model of `yaml.Node`. -/
inductive YNode where
  | scalar (value : String)
  | mapping (pairs : List (String × YNode))
  | sequence (items : List YNode)
  | document (items : List YNode)
deriving Repr

/-- Key lookup in a pair list (first match wins). -/
def lookupPairs (pairs : List (String × YNode)) (key : String) : Option YNode :=
  (pairs.find? (fun p => p.1 = key)).map (fun p => p.2)

/-- `walky.GetKey`: value node for a string key of a mapping (resolving a
document node to its first child), `nil` otherwise. -/
def getKey : YNode → String → Option YNode
  | .document (n :: _), key => getKey n key
  | .mapping pairs, key => lookupPairs pairs key
  | _, _ => none

/-- `walky.HasKey`. -/
def hasKey (n : YNode) (key : String) : Bool :=
  (getKey n key).isSome

/-- Replace the value of `key` in a pair list, appending the pair if the key
is absent. -/
def assignPairs : List (String × YNode) → String → YNode → List (String × YNode)
  | [], key, v => [(key, v)]
  | (k, w) :: rest, key, v =>
    if k = key then (k, v) :: rest else (k, w) :: assignPairs rest key v

/-- `walky.AssignMapNode` (resolving a document node to its first child);
no-op on nodes that are not mappings. -/
def assignMap : YNode → String → YNode → YNode
  | .document (n :: rest), key, v => .document (assignMap n key v :: rest)
  | .mapping pairs, key, v => .mapping (assignPairs pairs key v)
  | n, _, _ => n

/-- `walky.AppendNode`: append to a sequence (no-op otherwise; the Go
function returns an error for non-sequences, and every call site in the
processor passes a sequence). -/
def appendNode : YNode → YNode → YNode
  | .sequence items, n => .sequence (items ++ [n])
  | m, _ => m

/-- A node on which `assignMap` can actually assign: a mapping, or a
document whose first child is a mapping. -/
def YNode.isMapLike : YNode → Bool
  | .mapping _ => true
  | .document (n :: _) => n.isMapLike
  | _ => false

/-! ### walky lemmas -/

/-- Assigning a key into a pair list makes the key's value visible. -/
theorem lookup_assignPairs_same (key : String) (v : YNode) :
    ∀ (pairs : List (String × YNode)),
    lookupPairs (assignPairs pairs key v) key = some v := by
  intro pairs
  induction pairs with
  | nil => simp [assignPairs, lookupPairs]
  | cons p rest ih =>
    by_cases hk : p.1 = key
    · simp [assignPairs, hk, lookupPairs]
    · simpa [assignPairs, hk, lookupPairs, List.find?_cons] using ih

/-- Assigning a key into a pair list leaves other keys untouched. -/
theorem lookup_assignPairs_other (key other : String) (v : YNode) (hne : other ≠ key) :
    ∀ (pairs : List (String × YNode)),
    lookupPairs (assignPairs pairs key v) other = lookupPairs pairs other := by
  have hne' : key ≠ other := Ne.symm hne
  intro pairs
  induction pairs with
  | nil => simp [assignPairs, lookupPairs, hne']
  | cons p rest ih =>
    by_cases hk : p.1 = key
    · have ho : ¬ p.1 = other := fun h => hne (h ▸ hk)
      simp [assignPairs, hk, lookupPairs, List.find?_cons, ho, hne']
    · by_cases ho : p.1 = other
      · simp [assignPairs, hk, lookupPairs, List.find?_cons, ho, hne]
      · simpa [assignPairs, hk, lookupPairs, List.find?_cons, ho] using ih

/-- Assignment makes the key visible (on map-like nodes). -/
theorem getKey_assignMap_same :
    ∀ (root : YNode) (key : String) (v : YNode), root.isMapLike = true →
    getKey (assignMap root key v) key = some v
  | .scalar _, _, _, h => by simp [YNode.isMapLike] at h
  | .mapping pairs, key, v, _ => by
    simpa [assignMap, getKey] using lookup_assignPairs_same key v pairs
  | .sequence _, _, _, h => by simp [YNode.isMapLike] at h
  | .document [], _, _, h => by simp [YNode.isMapLike] at h
  | .document (n :: rest), key, v, h => by
    simp only [YNode.isMapLike] at h
    simpa [assignMap, getKey] using getKey_assignMap_same n key v h

/-- Assignment leaves every other key untouched. -/
theorem getKey_assignMap_other :
    ∀ (root : YNode) (key other : String) (v : YNode), other ≠ key →
    getKey (assignMap root key v) other = getKey root other
  | .scalar _, _, _, _, _ => rfl
  | .mapping pairs, key, other, v, hne => by
    simpa [assignMap, getKey] using lookup_assignPairs_other key other v hne pairs
  | .sequence _, _, _, _, _ => rfl
  | .document [], _, _, _, _ => rfl
  | .document (n :: rest), key, other, v, hne => by
    simpa [assignMap, getKey] using getKey_assignMap_other n key other v hne

/-! ## Typed document model -/

/-- `DeliveryEnvironment`. -/
structure DeliveryEnvironment where
  Name      : String := ""
  Locations : DeliveryResourceLocations := {}
  Resources : List DeliveryResource := []
deriving DecidableEq, Repr

/-- `DeliveryConfig` (document root of the typed model). -/
structure DeliveryConfig where
  Name         : String := ""
  Application  : String := ""
  Artifacts    : List DeliveryArtifact := []
  Environments : List DeliveryEnvironment := []
deriving DecidableEq, Repr

/-- `DeliveryConfigProcessor` state: the application name, the typed model,
the raw tree (`none` before the first load), and the raw file bytes.
File-name/directory fields and the injected providers are orthogonal to the
claims and appear as explicit function arguments where needed. -/
structure DeliveryConfigProcessor where
  appName           : String := ""
  deliveryConfig    : DeliveryConfig := {}
  rawDeliveryConfig : Option YNode := none
  content           : String := ""

/-! ## `Save` defaulting (deliveryconfig.go lines 355-368)

Before serializing, `Save` back-fills exactly two keys on the raw tree: the
`application` key (if absent, and only when the processor has an app name)
and the `artifacts` key (if absent, as an empty sequence).  No other key is
touched by this defaulting pass; in particular `name` is never written. -/

/-- The defaulting pass at the top of `Save`. -/
def savePrepare (appName : String) (root : YNode) : YNode :=
  let root :=
    if !(hasKey root "application") && appName ≠ "" then
      assignMap root "application" (.scalar appName)
    else root
  let root :=
    if !(hasKey root "artifacts") then
      assignMap root "artifacts" (.sequence [])
    else root
  root

/-- C4 counterexample: for a document with `application` present but no
`name`, and app name `"myapp"`, the defaulting pass of `Save` leaves the
document without any `name` key — the claimed `"<appName>-manifest"`
default for `name` is never written. -/
theorem savePrepare_no_name_default :
    hasKey (YNode.document [.mapping [("application", .scalar "myapp")]]) "name" = false
      ∧ hasKey (savePrepare "myapp"
          (YNode.document [.mapping [("application", .scalar "myapp")]])) "name" = false
      ∧ hasKey (savePrepare "myapp"
          (YNode.document [.mapping [("application", .scalar "myapp")]])) "artifacts" = true := by
  refine ⟨by decide, by decide, by decide⟩

/-- `assignMap` preserves map-likeness. -/
theorem isMapLike_assignMap :
    ∀ (r : YNode) (k : String) (v : YNode), r.isMapLike = true →
    (assignMap r k v).isMapLike = true
  | .scalar _, _, _, h => by simp [YNode.isMapLike] at h
  | .mapping pairs, k, v, _ => by simp [assignMap, YNode.isMapLike]
  | .sequence _, _, _, h => by simp [YNode.isMapLike] at h
  | .document [], _, _, h => by simp [YNode.isMapLike] at h
  | .document (n :: rest), k, v, h => by
    simp only [YNode.isMapLike] at h
    simpa [assignMap, YNode.isMapLike] using isMapLike_assignMap n k v h

/-- C4 (amended): at save time only `application` (with the plain app name,
when the processor has one) and `artifacts` are populated when absent;
values already present for `application` and `artifacts` are never
overwritten, and the `name` key is never populated nor modified by the
defaulting pass of `Save`. -/
theorem savePrepare_characterization (appName : String) (root : YNode) :
    (getKey (savePrepare appName root) "name" = getKey root "name")
    ∧ (hasKey root "application" = true →
        getKey (savePrepare appName root) "application" = getKey root "application")
    ∧ (hasKey root "application" = false → appName ≠ "" → root.isMapLike = true →
        getKey (savePrepare appName root) "application" = some (.scalar appName))
    ∧ (hasKey root "artifacts" = true →
        getKey (savePrepare appName root) "artifacts" = getKey root "artifacts")
    ∧ (hasKey root "artifacts" = false → root.isMapLike = true →
        getKey (savePrepare appName root) "artifacts" = some (.sequence [])) := by
  have hne1 : ("name" : String) ≠ "application" := by decide
  have hne2 : ("name" : String) ≠ "artifacts" := by decide
  have hne3 : ("application" : String) ≠ "artifacts" := by decide
  have hne4 : ("artifacts" : String) ≠ "application" := by decide
  -- the value of the first defaulting step
  set r1 := if !(hasKey root "application") && (appName ≠ "" : Bool) then
      assignMap root "application" (.scalar appName) else root with hr1
  have hsp : savePrepare appName root =
      (if !(hasKey r1 "artifacts") then assignMap r1 "artifacts" (.sequence []) else r1) := rfl
  have hr1art : getKey r1 "artifacts" = getKey root "artifacts" := by
    rw [hr1]
    by_cases c : (!(hasKey root "application") && (appName ≠ "" : Bool)) = true
    · rw [if_pos c]
      exact getKey_assignMap_other root "application" "artifacts" _ hne4
    · rw [if_neg c]
  have hr1name : getKey r1 "name" = getKey root "name" := by
    rw [hr1]
    by_cases c : (!(hasKey root "application") && (appName ≠ "" : Bool)) = true
    · rw [if_pos c]
      exact getKey_assignMap_other root "application" "name" _ hne1
    · rw [if_neg c]
  have hr1maplike : root.isMapLike = true → r1.isMapLike = true := by
    intro h
    rw [hr1]
    by_cases c : (!(hasKey root "application") && (appName ≠ "" : Bool)) = true
    · rw [if_pos c]; exact isMapLike_assignMap root _ _ h
    · rwa [if_neg c]
  refine ⟨?_, ?_, ?_, ?_, ?_⟩
  · -- name is never touched
    rw [hsp]
    by_cases c : (!(hasKey r1 "artifacts")) = true
    · rw [if_pos c, getKey_assignMap_other r1 "artifacts" "name" _ hne2, hr1name]
    · rw [if_neg c, hr1name]
  · -- application present: untouched
    intro happ
    have hc : (!(hasKey root "application") && (appName ≠ "" : Bool)) = false := by
      simp [happ]
    have hr1app : getKey r1 "application" = getKey root "application" := by
      rw [hr1, hc]
      simp
    rw [hsp]
    by_cases c : (!(hasKey r1 "artifacts")) = true
    · rw [if_pos c, getKey_assignMap_other r1 "artifacts" "application" _ hne3, hr1app]
    · rw [if_neg c, hr1app]
  · -- application absent and appName non-empty: defaulted to the app name
    intro happ hname hmap
    have hc : (!(hasKey root "application") && (appName ≠ "" : Bool)) = true := by
      simp [happ, hname]
    have hr1app : getKey r1 "application" = some (.scalar appName) := by
      rw [hr1, if_pos hc]
      exact getKey_assignMap_same root "application" _ hmap
    rw [hsp]
    by_cases c : (!(hasKey r1 "artifacts")) = true
    · rw [if_pos c, getKey_assignMap_other r1 "artifacts" "application" _ hne3, hr1app]
    · rw [if_neg c, hr1app]
  · -- artifacts present: untouched
    intro hart
    have hc : (!(hasKey r1 "artifacts")) = false := by
      simp only [hasKey] at hart ⊢
      rw [hr1art]
      simp [hart]
    rw [hsp, hc]
    simp [hr1art]
  · -- artifacts absent: defaulted to the empty sequence
    intro hart hmap
    have hc : (!(hasKey r1 "artifacts")) = true := by
      simp only [hasKey] at hart ⊢
      rw [hr1art]
      simp [hart]
    rw [hsp, if_pos hc]
    exact getKey_assignMap_same r1 "artifacts" _ (hr1maplike hmap)

/-- C4 witness: on a concrete document with neither `application` nor
`artifacts`, both defaults are materialized and `name` stays absent. -/
theorem savePrepare_characterization_witness :
    getKey (savePrepare "myapp" (YNode.document [.mapping [("environments", .sequence [])]]))
        "application" = some (.scalar "myapp")
      ∧ getKey (savePrepare "myapp" (YNode.document [.mapping [("environments", .sequence [])]]))
        "artifacts" = some (.sequence [])
      ∧ getKey (savePrepare "myapp" (YNode.document [.mapping [("environments", .sequence [])]]))
        "name" = none := by
  have h := savePrepare_characterization "myapp"
    (YNode.document [.mapping [("environments", .sequence [])]])
  refine ⟨h.2.2.1 (by decide) (by decide) (by decide),
    h.2.2.2.2 (by decide) (by decide), ?_⟩
  rw [h.1]
  rfl

/-! ## `Load` (deliveryconfig.go lines 314-352)

`Load` first resets the typed state, then stats/reads the file, then parses
the bytes twice (raw tree, then typed config).  The filesystem interaction
is an input (`FileReadResult`), and the two YAML decoders are abstract
parser arguments: their code lives in gopkg.in/yaml.v3, outside this
repository.  `ErrorInvalidContent` carries the offending bytes and the
underlying parse error; the `xerrors` wrapping adds only message text. -/

/-- Outcome of `os.Stat` + `ioutil.ReadFile` on the delivery file. -/
inductive FileReadResult where
  | notExist
  | statFailure (msg : String)
  | readFailure (msg : String)
  | ok (content : String)
deriving DecidableEq, Repr

/-- Errors surfaced by `Load` (wrapping collapsed to the carried data;
`invalidContent` is `ErrorInvalidContent{Content, ParseError}`). -/
inductive LoadError where
  | statFailure (msg : String)
  | readFailure (msg : String)
  | invalidContent (content : String) (parseError : String)
deriving DecidableEq, Repr

/-- The zero `yaml.Node` (`&yaml.Node{}`): what `p.rawDeliveryConfig` points
at when a parse fails before filling it; the claims never inspect it. -/
def zeroYamlNode : YNode := .scalar ""

/-- `DeliveryConfigProcessor.Load`. -/
def load (parseRaw : String → Except String YNode)
    (parseTyped : String → Except String DeliveryConfig)
    (file : FileReadResult) (p : DeliveryConfigProcessor) :
    DeliveryConfigProcessor × Option LoadError :=
  let p := { p with deliveryConfig := {} }
  match file with
  | .notExist =>
    ({ p with rawDeliveryConfig := some (.document [.mapping []]) }, none)
  | .statFailure msg => (p, some (.statFailure msg))
  | .readFailure msg => (p, some (.readFailure msg))
  | .ok content =>
    let p := { p with content := content }
    match parseRaw content with
    | .error e => ({ p with rawDeliveryConfig := some zeroYamlNode },
        some (.invalidContent content e))
    | .ok node =>
      let p := { p with rawDeliveryConfig := some node }
      match parseTyped content with
      | .error e => (p, some (.invalidContent content e))
      | .ok cfg => ({ p with deliveryConfig := cfg }, none)

/-- C8: `Load` succeeds with an empty document when the file does not
exist; it reports `InvalidContent` (carrying the content bytes and the
parse error) exactly when one of the two parses fails; stat/read failures
surface as plain errors, not `InvalidContent`; and the typed state is reset
on entry, so it never retains the previous config. -/
theorem load_characterization (parseRaw : String → Except String YNode)
    (parseTyped : String → Except String DeliveryConfig)
    (file : FileReadResult) (p : DeliveryConfigProcessor) :
    (file = .notExist →
      (load parseRaw parseTyped file p).2 = none
        ∧ (load parseRaw parseTyped file p).1.rawDeliveryConfig
            = some (.document [.mapping []])
        ∧ (load parseRaw parseTyped file p).1.deliveryConfig = {})
    ∧ (∀ content e, file = .ok content → parseRaw content = .error e →
      (load parseRaw parseTyped file p).2 = some (.invalidContent content e)
        ∧ (load parseRaw parseTyped file p).1.deliveryConfig = {})
    ∧ (∀ content node e, file = .ok content → parseRaw content = .ok node →
        parseTyped content = .error e →
      (load parseRaw parseTyped file p).2 = some (.invalidContent content e)
        ∧ (load parseRaw parseTyped file p).1.rawDeliveryConfig = some node
        ∧ (load parseRaw parseTyped file p).1.deliveryConfig = {})
    ∧ (∀ content node cfg, file = .ok content → parseRaw content = .ok node →
        parseTyped content = .ok cfg →
      (load parseRaw parseTyped file p).2 = none
        ∧ (load parseRaw parseTyped file p).1.rawDeliveryConfig = some node
        ∧ (load parseRaw parseTyped file p).1.deliveryConfig = cfg)
    ∧ (∀ msg, file = .statFailure msg →
      (load parseRaw parseTyped file p).2 = some (.statFailure msg)
        ∧ (load parseRaw parseTyped file p).1.deliveryConfig = {})
    ∧ (∀ msg, file = .readFailure msg →
      (load parseRaw parseTyped file p).2 = some (.readFailure msg)
        ∧ (load parseRaw parseTyped file p).1.deliveryConfig = {}) := by
  refine ⟨?_, ?_, ?_, ?_, ?_, ?_⟩
  · rintro rfl
    exact ⟨rfl, rfl, rfl⟩
  · rintro content e rfl hraw
    simp [load, hraw]
  · rintro content node e rfl hraw htyped
    simp [load, hraw, htyped]
  · rintro content node cfg rfl hraw htyped
    simp [load, hraw, htyped]
  · rintro msg rfl
    exact ⟨rfl, rfl⟩
  · rintro msg rfl
    exact ⟨rfl, rfl⟩

/-- C8 witness: a run with a present file whose raw parse fails yields the
`InvalidContent` error carrying the bytes and parse error, and a reset
typed state. -/
theorem load_characterization_witness :
    (load (fun _ => .error "bad indent") (fun _ => .ok {})
        (.ok "not: [valid") { deliveryConfig := { Name := "stale" } }).2
      = some (.invalidContent "not: [valid" "bad indent")
    ∧ (load (fun _ => .error "bad indent") (fun _ => .ok {})
        (.ok "not: [valid") { deliveryConfig := { Name := "stale" } }).1.deliveryConfig
      = {} := by
  have h := (load_characterization (fun _ => .error "bad indent") (fun _ => .ok {})
    (.ok "not: [valid") { deliveryConfig := { Name := "stale" } }).2.1
    "not: [valid" "bad indent" rfl rfl
  exact ⟨h.1, h.2⟩

/-! ## `findResourceIndex` / `ResourceExists` (deliveryconfig.go lines 631-658)

The scan walks an environment's resources; a resource whose own locations
are `Empty()` first inherits the environment's default locations (the Go
code mutates the resource in place through its pointer, modelled by
returning the updated list), and only then is tested with `Match`. -/

/-- The in-place location inheritance applied to one scanned resource. -/
def inheritLocations (envLoc : DeliveryResourceLocations) (r : DeliveryResource) :
    DeliveryResource :=
  if r.Spec.Locations.Empty then { r with Spec := { r.Spec with Locations := envLoc } } else r

/-- The `for ix, resource := range ...Resources` loop of
`findResourceIndex`: returns the first matching index (after inheritance)
and the list as mutated by the scan. -/
def findResourceScan (search : ExportableResource) (envLoc : DeliveryResourceLocations) :
    List DeliveryResource → Option Nat × List DeliveryResource
  | [] => (none, [])
  | r :: rest =>
    let r' := inheritLocations envLoc r
    if r'.Match search then (some 0, r' :: rest)
    else
      let (res, rest') := findResourceScan search envLoc rest
      (res.map (fun i => i + 1), r' :: rest')

/-- `DeliveryConfigProcessor.findResourceIndex` on the typed model.  The Go
guard compares with `<` (not `≤`); for `envIx = len(Environments)` the Go
code would panic on the slice index, which no call site reaches, and the
model returns "not found" there. -/
def findResourceIndexP (cfg : DeliveryConfig) (search : ExportableResource)
    (envIx : Nat) : Option Nat × DeliveryConfig :=
  if cfg.Environments.length < envIx then (none, cfg)
  else
    match cfg.Environments[envIx]? with
    | none => (none, cfg)
    | some env =>
      let (ix, rs) := findResourceScan search env.Locations env.Resources
      (ix, { cfg with Environments := cfg.Environments.set envIx { env with Resources := rs } })

/-- `DeliveryConfigProcessor.findEnvIndex`: first environment with the
given name, `-1` (here `none`) otherwise. -/
def findEnvIndex (cfg : DeliveryConfig) (envName : String) : Option Nat :=
  cfg.Environments.findIdx? (fun env => env.Name = envName)

/-- `DeliveryConfigProcessor.ResourceExists`: true iff `findResourceIndex`
succeeds in some environment (the scan of each prior environment also
applies the location inheritance; the boolean result is unaffected by that
mutation, which `resourceExistsState` below tracks for sequencing). -/
def resourceExists (cfg : DeliveryConfig) (search : ExportableResource) : Bool :=
  cfg.Environments.any (fun env =>
    (findResourceScan search env.Locations env.Resources).1.isSome)

/-- C7: the scan of `findResourceIndex` applies the environment's default
locations to every scanned resource whose own locations are empty *before*
the `Match` test: the returned index is the first index whose
location-inherited resource matches, the scanned prefix of the stored list
is location-inherited, and a resource with empty locations matches an
identity whose account is the environment's default account (when kind,
provider and name agree). -/
theorem findResourceScan_inherits (search : ExportableResource)
    (envLoc : DeliveryResourceLocations) (resources : List DeliveryResource) :
    ((findResourceScan search envLoc resources).1
        = resources.findIdx? (fun r => (inheritLocations envLoc r).Match search))
    ∧ ((findResourceScan search envLoc resources).2
        = (resources.take ((findResourceScan search envLoc resources).1.elim
              resources.length (fun k => k + 1))).map (inheritLocations envLoc)
          ++ resources.drop ((findResourceScan search envLoc resources).1.elim
              resources.length (fun k => k + 1)))
    ∧ (∀ r : DeliveryResource, r.Spec.Locations.Empty = true →
        search.HasKind r.Kind = true →
        r.CloudProvider = search.CloudProvider →
        envLoc.Account = search.Account →
        r.Name = search.Name →
        (inheritLocations envLoc r).Match search = true) := by
  refine ⟨?_, ?_, ?_⟩
  · induction resources with
    | nil => rfl
    | cons r rest ih =>
      by_cases h : (inheritLocations envLoc r).Match search = true
      · simp [findResourceScan, h, List.findIdx?_cons]
      · rw [Bool.not_eq_true] at h
        simp [findResourceScan, h, List.findIdx?_cons, ih]
  · induction resources with
    | nil => rfl
    | cons r rest ih =>
      by_cases h : (inheritLocations envLoc r).Match search = true
      · simp [findResourceScan, h]
      · rw [Bool.not_eq_true] at h
        simp only [findResourceScan, h, Bool.false_eq_true, if_false]
        cases hres : (findResourceScan search envLoc rest).1 with
        | none =>
          rw [hres] at ih
          simp only [hres, Option.map_none, Option.elim] at *
          simp [ih]
        | some k =>
          rw [hres] at ih
          simp only [hres, Option.map_some, Option.elim] at *
          simp [ih]
  · intro r hempty hkind hprov hacct hname
    have hinherit : inheritLocations envLoc r
        = { r with Spec := { r.Spec with Locations := envLoc } } := by
      simp [inheritLocations, hempty]
    rw [hinherit]
    simp only [DeliveryResource.Match, Bool.and_eq_true, decide_eq_true_eq]
    refine ⟨⟨⟨hkind, ?_⟩, ?_⟩, ?_⟩
    · simpa [DeliveryResource.CloudProvider] using hprov
    · simpa [DeliveryResource.Account] using hacct
    · simpa [DeliveryResource.Name] using hname

/-- C7 witness: a concrete cluster resource with empty locations, in an
environment whose default account is the searched account. -/
theorem findResourceScan_inherits_witness :
    (findResourceScan ⟨"cluster", "aws", "prod", "app"⟩ { Account := "prod" }
        [{ Kind := "ec2/cluster@v1", Spec := { Moniker := { App := "app" } } }]).1 = some 0
    ∧ (inheritLocations { Account := "prod" }
        { Kind := "ec2/cluster@v1", Spec := { Moniker := { App := "app" } } }).Match
        ⟨"cluster", "aws", "prod", "app"⟩ = true := by
  have h := findResourceScan_inherits ⟨"cluster", "aws", "prod", "app"⟩ { Account := "prod" }
    [{ Kind := "ec2/cluster@v1", Spec := { Moniker := { App := "app" } } }]
  have hm := h.2.2 { Kind := "ec2/cluster@v1", Spec := { Moniker := { App := "app" } } }
    (by decide) (by decide) (by decide) (by decide) (by decide)
  refine ⟨?_, hm⟩
  rw [h.1]
  simp [List.findIdx?_cons, hm]

/-! ## `UpsertResource` (deliveryconfig.go lines 512-612)

The function operates on both views at once: the typed config (environment
and resource lists) and the raw tree (the `environments` sequence node).
Parsing of the `content` argument happens before any state change; the
parsed generic node (`data`) and typed resource (`deliveryResource`) enter
the model as arguments, so "well-formed resource content" is expressed as
hypotheses about them.  The four injected providers return the node their
`[]interface{}` result converts to. -/

/-- Set the `i`-th element of a sequence node (in-place mutation of
`resourcesNode.Content[resourceIx]`). -/
def setSeqItem : YNode → Nat → YNode → YNode
  | .sequence items, i, v => .sequence (items.set i v)
  | n, _, _ => n

/-- Apply `f` to environment `e` of the typed config (in-place mutation of
`p.deliveryConfig.Environments[envIx]`). -/
def modifyEnv (cfg : DeliveryConfig) (e : Nat)
    (f : DeliveryEnvironment → DeliveryEnvironment) : DeliveryConfig :=
  match cfg.Environments[e]? with
  | some env => { cfg with Environments := cfg.Environments.set e (f env) }
  | none => cfg

/-- The environment node built for a brand-new environment (the Go source
builds it from a `map[string]interface{}`, whose iteration order is
arbitrary; the claims never depend on the pair order chosen here). -/
def newEnvironmentNode (cP nP vP pP : String → DeliveryConfig → YNode)
    (envName : String) (cfg : DeliveryConfig) (data : YNode) : YNode :=
  .mapping [("name", .scalar envName),
            ("constraints", cP envName cfg),
            ("notifications", nP envName cfg),
            ("resources", .sequence [data]),
            ("verifyWith", vP envName cfg),
            ("postDeploy", pP envName cfg)]

/-- Result of `UpsertResource`: both views plus the `added` return value. -/
structure UpsertResult where
  cfg   : DeliveryConfig
  root  : YNode
  added : Bool

/-- The body of `UpsertResource` for an existing environment node: back-fill
`constraints`/`notifications`, locate/replace-or-append the resource (when a
`resources` node exists), then unconditionally refresh
`verifyWith`/`postDeploy`.  Returns the new typed config, the updated
environment node and the `added` flag. -/
def backfillEnvNode (cP nP : String → DeliveryConfig → YNode)
    (cfg : DeliveryConfig) (envName : String) (envNode : YNode) : YNode :=
  let envNode := if !(hasKey envNode "constraints") then
      assignMap envNode "constraints" (cP envName cfg) else envNode
  let envNode := if !(hasKey envNode "notifications") then
      assignMap envNode "notifications" (nP envName cfg) else envNode
  envNode

/-- The back-fill of absent `constraints`/`notifications` touches no other
key. -/
theorem backfillEnvNode_getKey_other (cP nP : String → DeliveryConfig → YNode)
    (cfg : DeliveryConfig) (envName : String) (envNode : YNode) (k : String)
    (h1 : k ≠ "constraints") (h2 : k ≠ "notifications") :
    getKey (backfillEnvNode cP nP cfg envName envNode) k = getKey envNode k := by
  unfold backfillEnvNode
  by_cases hc : (!(hasKey envNode "constraints")) = true <;>
    by_cases hn : (!(hasKey (if (!(hasKey envNode "constraints")) = true then
        assignMap envNode "constraints" (cP envName cfg) else envNode) "notifications")) = true <;>
      simp only [hc, hn, if_true, if_false, Bool.not_eq_true] at * <;>
        simp_all [getKey_assignMap_other _ _ _ _ h1, getKey_assignMap_other _ _ _ _ h2]

def upsertEnvBody (cP nP vP pP : String → DeliveryConfig → YNode)
    (cfg : DeliveryConfig) (resource : ExportableResource) (envName : String)
    (data : YNode) (deliveryResource : DeliveryResource)
    (envNode : YNode) (e : Nat) : DeliveryConfig × YNode × Bool :=
  let envNode := backfillEnvNode cP nP cfg envName envNode
  let resourcesNode := getKey envNode "resources"
  let step :=
    match resourcesNode with
    | none => (cfg, envNode, false)
    | some resNode =>
      let found := findResourceIndexP cfg resource e
      match found.1 with
      | none =>
        (modifyEnv found.2 e (fun env =>
            { env with Resources := env.Resources ++ [deliveryResource] }),
          assignMap envNode "resources" (appendNode resNode data),
          true)
      | some ri =>
        (modifyEnv found.2 e (fun env =>
            { env with Resources := env.Resources.set ri deliveryResource }),
          assignMap envNode "resources" (setSeqItem resNode ri data),
          false)
  let envNode := assignMap step.2.1 "verifyWith" (vP envName step.1)
  let envNode := assignMap envNode "postDeploy" (pP envName step.1)
  (step.1, envNode, step.2.2)

/-- `DeliveryConfigProcessor.UpsertResource` after content parsing. -/
def upsertResource (cP nP vP pP : String → DeliveryConfig → YNode)
    (cfg : DeliveryConfig) (root : YNode) (resource : ExportableResource)
    (envName : String) (data : YNode) (deliveryResource : DeliveryResource) :
    UpsertResult :=
  let envIx := findEnvIndex cfg envName
  let envsNode := getKey root "environments"
  if envsNode.isNone || envIx.isNone then
    -- new environment
    let ens := envsNode.getD (.sequence [])
    let newEnvNode := newEnvironmentNode cP nP vP pP envName cfg data
    let ens := appendNode ens newEnvNode
    let root := assignMap root "environments" ens
    let cfg := { cfg with Environments :=
        cfg.Environments ++ [{ Name := envName, Resources := [deliveryResource] }] }
    ⟨cfg, root, true⟩
  else
    match envIx, envsNode with
    | some e, some (.sequence envNodes) =>
      if e < envNodes.length then
        let body := upsertEnvBody cP nP vP pP cfg resource envName data
            deliveryResource (envNodes.getD e (.mapping [])) e
        let root := assignMap root "environments" (.sequence (envNodes.set e body.2.1))
        ⟨body.1, root, body.2.2⟩
      else ⟨cfg, root, false⟩
    | _, _ => ⟨cfg, root, false⟩

/-- Raw/typed alignment invariant used by the upsert claims: the raw
`environments` node is absent exactly when the typed environment list is
empty, and otherwise is a sequence of the same length in which every
environment node carries a `resources` sequence. -/
def envsAligned (cfg : DeliveryConfig) (root : YNode) : Bool :=
  match getKey root "environments" with
  | none => cfg.Environments.isEmpty
  | some (.sequence envNodes) =>
    envNodes.length = cfg.Environments.length &&
      envNodes.all (fun envNode =>
        match getKey envNode "resources" with
        | some (.sequence _) => true
        | _ => false)
  | some _ => false

/-! ### Helper lemmas for the upsert claims -/

/-- Location inheritance is idempotent. -/
theorem inheritLocations_idem (L : DeliveryResourceLocations) (r : DeliveryResource) :
    inheritLocations L (inheritLocations L r) = inheritLocations L r := by
  by_cases he : r.Spec.Locations.Empty = true
  · simp only [inheritLocations, he, if_true]
    by_cases hL : L.Empty = true <;> simp [hL]
  · rw [Bool.not_eq_true] at he
    simp [inheritLocations, he]

/-- A resource with non-empty locations is unchanged by inheritance. -/
theorem inheritLocations_of_nonempty (L : DeliveryResourceLocations)
    (r : DeliveryResource) (h : r.Spec.Locations.Empty = false) :
    inheritLocations L r = r := by
  simp [inheritLocations, h]

/-- The scan of `findResourceIndex` preserves the number of resources. -/
theorem findResourceScan_length (search : ExportableResource)
    (envLoc : DeliveryResourceLocations) :
    ∀ (resources : List DeliveryResource),
    (findResourceScan search envLoc resources).2.length = resources.length := by
  intro resources
  induction resources with
  | nil => rfl
  | cons r rest ih =>
    by_cases h : (inheritLocations envLoc r).Match search = true
    · simp [findResourceScan, h]
    · rw [Bool.not_eq_true] at h
      simp [findResourceScan, h, ih]

/-- The inherited-match predicate is stable under prior inheritance. -/
theorem match_inherit_stable (search : ExportableResource)
    (envLoc : DeliveryResourceLocations) (r : DeliveryResource) :
    (inheritLocations envLoc (inheritLocations envLoc r)).Match search
      = (inheritLocations envLoc r).Match search := by
  rw [inheritLocations_idem]

/-- A node with a visible key is map-like. -/
theorem isMapLike_of_getKey_some :
    ∀ (root : YNode) (k : String) (v : YNode), getKey root k = some v →
    root.isMapLike = true
  | .scalar _, _, _, h => by simp [getKey] at h
  | .mapping _, _, _, _ => rfl
  | .sequence _, _, _, h => by simp [getKey] at h
  | .document [], _, _, h => by simp [getKey] at h
  | .document (n :: rest), k, v, h => by
    simp only [getKey] at h
    simpa [YNode.isMapLike] using isMapLike_of_getKey_some n k v h

/-- `findEnvIndex` depends only on environment names. -/
theorem findEnvIndex_eq_of_names (cfg cfg' : DeliveryConfig) (envName : String)
    (h : cfg.Environments.map (fun env => env.Name)
        = cfg'.Environments.map (fun env => env.Name)) :
    findEnvIndex cfg envName = findEnvIndex cfg' envName := by
  unfold findEnvIndex
  have h1 : ∀ (l : List DeliveryEnvironment),
      l.findIdx? (fun env => env.Name = envName)
        = (l.map (fun env => env.Name)).findIdx? (fun n => n = envName) := by
    intro l
    rw [List.findIdx?_map]
    rfl
  rw [h1, h1, h]

/-- Behaviour of the per-environment upsert body when the environment node
carries a `resources` sequence: the typed update and `added` flag follow
the result of `findResourceIndex`, and the updated environment node still
carries a `resources` sequence. -/
theorem upsertEnvBody_spec (cP nP vP pP : String → DeliveryConfig → YNode)
    (cfg : DeliveryConfig) (resource : ExportableResource) (envName : String)
    (data : YNode) (d : DeliveryResource) (envNode : YNode) (e : Nat)
    (rs : List YNode) (hres : getKey envNode "resources" = some (.sequence rs)) :
    ((findResourceIndexP cfg resource e).1 = none →
      (upsertEnvBody cP nP vP pP cfg resource envName data d envNode e).1
          = modifyEnv (findResourceIndexP cfg resource e).2 e
              (fun env => { env with Resources := env.Resources ++ [d] })
        ∧ (upsertEnvBody cP nP vP pP cfg resource envName data d envNode e).2.2 = true)
    ∧ (∀ ri, (findResourceIndexP cfg resource e).1 = some ri →
      (upsertEnvBody cP nP vP pP cfg resource envName data d envNode e).1
          = modifyEnv (findResourceIndexP cfg resource e).2 e
              (fun env => { env with Resources := env.Resources.set ri d })
        ∧ (upsertEnvBody cP nP vP pP cfg resource envName data d envNode e).2.2 = false)
    ∧ (∃ rs2, getKey
        (upsertEnvBody cP nP vP pP cfg resource envName data d envNode e).2.1
        "resources" = some (.sequence rs2)) := by
  have hres' : getKey (backfillEnvNode cP nP cfg envName envNode) "resources"
      = some (.sequence rs) := by
    rw [backfillEnvNode_getKey_other cP nP cfg envName envNode "resources"
      (by decide) (by decide)]
    exact hres
  have hml : (backfillEnvNode cP nP cfg envName envNode).isMapLike = true :=
    isMapLike_of_getKey_some _ _ _ hres'
  simp only [upsertEnvBody]
  rw [hres']
  cases hfd : (findResourceIndexP cfg resource e).1 with
  | none =>
    refine ⟨fun _ => ⟨rfl, rfl⟩, ?_, ?_⟩
    · intro ri hri
      cases hri
    · refine ⟨rs ++ [data], ?_⟩
      rw [getKey_assignMap_other _ "postDeploy" "resources" _ (by decide),
        getKey_assignMap_other _ "verifyWith" "resources" _ (by decide),
        getKey_assignMap_same _ "resources" _ hml]
      rfl
  | some ri =>
    refine ⟨?_, ?_, ?_⟩
    · intro h
      cases h
    · intro ri' hri'
      cases hri'
      exact ⟨rfl, rfl⟩
    · refine ⟨rs.set ri data, ?_⟩
      rw [getKey_assignMap_other _ "postDeploy" "resources" _ (by decide),
        getKey_assignMap_other _ "verifyWith" "resources" _ (by decide),
        getKey_assignMap_same _ "resources" _ hml]
      rfl

/-- State reached after a successful upsert of resource `d` for identity
`resource` into environment `envName`: both views aligned, and the named
environment holds `d` at the index its scan finds. -/
def upsertPost (resource : ExportableResource) (envName : String)
    (d : DeliveryResource) (r : UpsertResult) : Prop :=
  envsAligned r.cfg r.root = true ∧
  ∃ (e : Nat) (env : DeliveryEnvironment) (ix : Nat),
    findEnvIndex r.cfg envName = some e ∧
    r.cfg.Environments[e]? = some env ∧
    env.Resources.findIdx?
      (fun x => (inheritLocations env.Locations x).Match resource) = some ix ∧
    env.Resources[ix]? = some d

/-- From `upsertPost`, a further `UpsertResource` with any content replaces
the held resource in place: `added = false`, environment count and resource
count unchanged, and the typed entry at the same index becomes the new
resource. -/
theorem upsert_second_replaces (cP nP vP pP : String → DeliveryConfig → YNode)
    (resource : ExportableResource) (envName : String) (d : DeliveryResource)
    (r1 : UpsertResult) (data2 : YNode) (d2 : DeliveryResource)
    (hpost : upsertPost resource envName d r1) :
    (upsertResource cP nP vP pP r1.cfg r1.root resource envName data2 d2).added = false
    ∧ (upsertResource cP nP vP pP r1.cfg r1.root resource envName data2 d2).cfg.Environments.length
        = r1.cfg.Environments.length
    ∧ ∃ (e : Nat) (env1 env2 : DeliveryEnvironment) (ix : Nat),
        findEnvIndex r1.cfg envName = some e
        ∧ r1.cfg.Environments[e]? = some env1
        ∧ (upsertResource cP nP vP pP r1.cfg r1.root resource envName data2 d2).cfg.Environments[e]?
            = some env2
        ∧ env2.Resources.length = env1.Resources.length
        ∧ env1.Resources[ix]? = some d
        ∧ env2.Resources[ix]? = some d2 := by
  obtain ⟨hal, e, env, ix, hfind, henv, hidx, hd⟩ := hpost
  -- decode the alignment invariant
  cases hek : getKey r1.root "environments" with
  | none =>
    unfold envsAligned at hal
    rw [hek] at hal
    rw [List.isEmpty_iff] at hal
    rw [hal] at henv
    simp at henv
  | some node =>
    cases node with
    | scalar v => unfold envsAligned at hal; rw [hek] at hal; simp at hal
    | mapping pairs => unfold envsAligned at hal; rw [hek] at hal; simp at hal
    | document items => unfold envsAligned at hal; rw [hek] at hal; simp at hal
    | sequence envNodes =>
      unfold envsAligned at hal
      rw [hek] at hal
      rw [Bool.and_eq_true] at hal
      obtain ⟨hlen, hall⟩ := hal
      rw [decide_eq_true_eq] at hlen
      rw [List.all_eq_true] at hall
      have he_lt : e < r1.cfg.Environments.length := by
        rcases List.getElem?_eq_some.mp henv with ⟨h, _⟩
        exact h
      have he_lt' : e < envNodes.length := by omega
      -- the e-th environment node carries a resources sequence
      have hmem : envNodes.getD e (.mapping []) ∈ envNodes := by
        rw [List.getD_eq_getElem _ _ he_lt']
        exact List.getElem_mem he_lt'
      have hres0 := hall _ hmem
      have hrs : ∃ rs, getKey (envNodes.getD e (.mapping [])) "resources"
          = some (.sequence rs) := by
        cases hg : getKey (envNodes.getD e (.mapping [])) "resources" with
        | none => rw [hg] at hres0; simp at hres0
        | some n =>
          cases n with
          | sequence rs => exact ⟨rs, rfl⟩
          | scalar v => rw [hg] at hres0; simp at hres0
          | mapping pairs => rw [hg] at hres0; simp at hres0
          | document items => rw [hg] at hres0; simp at hres0
      obtain ⟨rs, hrs⟩ := hrs
      -- the resource lookup of the second upsert rediscovers the entry
      have hfound1 : (findResourceIndexP r1.cfg resource e).1 = some ix := by
        unfold findResourceIndexP
        rw [if_neg (by omega), henv]
        exact (findResourceScan_inherits resource env.Locations env.Resources).1.trans hidx
      have hfound2 : (findResourceIndexP r1.cfg resource e).2
          = { r1.cfg with Environments := (r1.cfg.Environments.set e
              { env with Resources :=
                (findResourceScan resource env.Locations env.Resources).2 }) } := by
        unfold findResourceIndexP
        rw [if_neg (by omega), henv]
      have hbody := (upsertEnvBody_spec cP nP vP pP r1.cfg resource envName data2 d2
        (envNodes.getD e (.mapping [])) e rs hrs).2.1 ix hfound1
      -- assemble the branch taken by upsertResource
      have hmain : upsertResource cP nP vP pP r1.cfg r1.root resource envName data2 d2
          = ⟨(upsertEnvBody cP nP vP pP r1.cfg resource envName data2 d2
                (envNodes.getD e (.mapping [])) e).1,
             assignMap r1.root "environments" (.sequence (envNodes.set e
               (upsertEnvBody cP nP vP pP r1.cfg resource envName data2 d2
                 (envNodes.getD e (.mapping [])) e).2.1)),
             (upsertEnvBody cP nP vP pP r1.cfg resource envName data2 d2
               (envNodes.getD e (.mapping [])) e).2.2⟩ := by
        simp only [upsertResource]
        rw [hek, hfind]
        simp only [Option.isNone_some, Bool.or_self, Bool.false_eq_true, if_false]
        rw [if_pos he_lt']
      rw [hmain]
      have hset_lt : ix < env.Resources.length := by
        rcases List.getElem?_eq_some.mp hd with ⟨h, _⟩
        exact h
      have hscanlen := findResourceScan_length resource env.Locations env.Resources
      -- final typed state of the replacement
      have hcfg2 : (upsertEnvBody cP nP vP pP r1.cfg resource envName data2 d2
          (envNodes.getD e (.mapping [])) e).1
          = { r1.cfg with Environments := (r1.cfg.Environments.set e
              { env with Resources :=
                ((findResourceScan resource env.Locations env.Resources).2).set ix d2 }) } := by
        rw [hbody.1, hfound2]
        unfold modifyEnv
        rw [List.getElem?_set_self (by omega)]
        simp [List.set_set]
      refine ⟨hbody.2, ?_, e, env,
        { env with Resources :=
          ((findResourceScan resource env.Locations env.Resources).2).set ix d2 },
        ix, hfind, henv, ?_, ?_, hd, ?_⟩
      · rw [hcfg2]
        simp
      · rw [hcfg2]
        simp only []
        exact List.getElem?_set_self (by omega)
      · simp only []
        rw [List.length_set, hscanlen]
      · simp only []
        rw [List.getElem?_set_self (by omega)]

/-- Pointwise description of the scan's mutated list: every entry up to and
including the found index (or every entry, when nothing matches) has been
location-inherited; later entries are untouched. -/
theorem findResourceScan_snd_getElem? (search : ExportableResource)
    (envLoc : DeliveryResourceLocations) :
    ∀ (resources : List DeliveryResource) (j : Nat),
    ((findResourceScan search envLoc resources).2)[j]? =
      (match (findResourceScan search envLoc resources).1 with
      | some k =>
        if j ≤ k then (resources[j]?).map (inheritLocations envLoc) else resources[j]?
      | none => (resources[j]?).map (inheritLocations envLoc)) := by
  intro resources
  induction resources with
  | nil => intro j; simp [findResourceScan]
  | cons r rest ih =>
    intro j
    by_cases h : (inheritLocations envLoc r).Match search = true
    · simp only [findResourceScan, h, if_true]
      cases j with
      | zero => simp
      | succ j => simp
    · rw [Bool.not_eq_true] at h
      simp only [findResourceScan, h, Bool.false_eq_true, if_false]
      cases hres : (findResourceScan search envLoc rest).1 with
      | none =>
        cases j with
        | zero => simp
        | succ j =>
          have := ih j
          rw [hres] at this
          simpa using this
      | some k =>
        cases j with
        | zero => simp
        | succ j =>
          have := ih j
          rw [hres] at this
          simpa [Nat.succ_le_succ_iff] using this

/-- Replacing an environment by one with the same name does not change
which environment a name lookup finds. -/
theorem findEnvIndex_set_same_name (cfg : DeliveryConfig) (envName : String)
    (e : Nat) (env newEnv : DeliveryEnvironment)
    (henv : cfg.Environments[e]? = some env) (hname : newEnv.Name = env.Name) :
    findEnvIndex { cfg with Environments := cfg.Environments.set e newEnv } envName
      = findEnvIndex cfg envName := by
  apply findEnvIndex_eq_of_names
  apply List.ext_getElem?
  intro n
  simp only [List.getElem?_map]
  rw [List.getElem?_set]
  by_cases hne : e = n
  · subst hne
    rcases List.getElem?_eq_some.mp henv with ⟨hlt, hget⟩
    rw [if_pos rfl, if_pos hlt, henv]
    simp [hname, hget]
  · rw [if_neg hne]

/-- After an append of a matching resource to a scanned list in which
nothing matched, the scan's predicate first fires at the appended index. -/
theorem findIdx_after_append (search : ExportableResource)
    (envLoc : DeliveryResourceLocations) (resources : List DeliveryResource)
    (d : DeliveryResource)
    (hnone : resources.findIdx?
      (fun x => (inheritLocations envLoc x).Match search) = none)
    (hd : (inheritLocations envLoc d).Match search = true) :
    (((findResourceScan search envLoc resources).2) ++ [d]).findIdx?
        (fun x => (inheritLocations envLoc x).Match search)
      = some resources.length := by
  have hfst : (findResourceScan search envLoc resources).1 = none :=
    (findResourceScan_inherits search envLoc resources).1.trans hnone
  have hall : ∀ x ∈ (findResourceScan search envLoc resources).2,
      (inheritLocations envLoc x).Match search = false := by
    intro x hx
    rcases List.getElem?_of_mem hx with ⟨j, hj⟩
    have hsnd := findResourceScan_snd_getElem? search envLoc resources j
    simp only [hfst] at hsnd
    rw [hj] at hsnd
    cases hr : resources[j]? with
    | none => rw [hr] at hsnd; cases hsnd
    | some rj =>
      rw [hr] at hsnd
      have hx' : x = inheritLocations envLoc rj := by
        simpa using hsnd
      rw [hx', match_inherit_stable]
      exact List.findIdx?_eq_none_iff.mp hnone rj (List.getElem?_mem hr)
  rw [List.findIdx?_append]
  rw [List.findIdx?_eq_none_iff.mpr hall]
  simp only [Option.none_or, List.findIdx?_cons, hd, if_true, List.findIdx?_nil]
  rw [findResourceScan_length]
  simp

/-- After replacing the found entry of a scanned list by another matching
resource, the scan's predicate still first fires at the same index. -/
theorem findIdx_after_replace (search : ExportableResource)
    (envLoc : DeliveryResourceLocations) (resources : List DeliveryResource)
    (d : DeliveryResource) (ri : Nat)
    (hsome : resources.findIdx?
      (fun x => (inheritLocations envLoc x).Match search) = some ri)
    (hd : (inheritLocations envLoc d).Match search = true) :
    (((findResourceScan search envLoc resources).2).set ri d).findIdx?
        (fun x => (inheritLocations envLoc x).Match search)
      = some ri := by
  have hfst : (findResourceScan search envLoc resources).1 = some ri :=
    (findResourceScan_inherits search envLoc resources).1.trans hsome
  rcases List.findIdx?_eq_some_iff_getElem.mp hsome with ⟨hlt, hpri, hbefore⟩
  have hlen : (((findResourceScan search envLoc resources).2).set ri d).length
      = resources.length := by
    rw [List.length_set, findResourceScan_length]
  rw [List.findIdx?_eq_some_iff_getElem]
  refine ⟨by omega, ?_, ?_⟩
  · have hsome' : (((findResourceScan search envLoc resources).2).set ri d)[ri]? = some d := by
      apply List.getElem?_set_self
      rw [findResourceScan_length]
      omega
    rw [List.getElem?_eq_getElem (by omega)] at hsome'
    rw [Option.some.injEq] at hsome'
    rw [hsome']
    exact hd
  · intro j hji
    have hj1 : (((findResourceScan search envLoc resources).2).set ri d)[j]?
        = ((findResourceScan search envLoc resources).2)[j]? := by
      apply List.getElem?_set_ne
      omega
    have hsnd := findResourceScan_snd_getElem? search envLoc resources j
    simp only [hfst] at hsnd
    have hjlt : j < resources.length := by omega
    rw [if_pos (by omega : j ≤ ri)] at hsnd
    rw [List.getElem?_eq_getElem hjlt] at hsnd
    have hval : (((findResourceScan search envLoc resources).2).set ri d)[j]?
        = some (inheritLocations envLoc resources[j]) := by
      rw [hj1, hsnd]
      rfl
    rw [List.getElem?_eq_getElem (by omega)] at hval
    rw [Option.some.injEq] at hval
    rw [hval, match_inherit_stable]
    have := hbefore j hji
    simpa using this

/-- First upsert into an existing environment establishes `upsertPost`: the
scan either appends the parsed resource or replaces the matched entry, and
in both cases the environment afterwards holds it at the index its scan
finds. -/
theorem upsert_existing_env_post (cP nP vP pP : String → DeliveryConfig → YNode)
    (cfg : DeliveryConfig) (root : YNode) (resource : ExportableResource)
    (envName : String) (data : YNode) (d : DeliveryResource) (e : Nat)
    (hal : envsAligned cfg root = true)
    (hfind : findEnvIndex cfg envName = some e)
    (hmatch : d.Match resource = true)
    (hloc : d.Spec.Locations.Empty = false) :
    upsertPost resource envName d
      (upsertResource cP nP vP pP cfg root resource envName data d) := by
  have he_lt : e < cfg.Environments.length := by
    rcases List.findIdx?_eq_some_iff_findIdx_eq.mp hfind with ⟨h, _⟩
    exact h
  cases hek : getKey root "environments" with
  | none =>
    unfold envsAligned at hal
    rw [hek, List.isEmpty_iff] at hal
    rw [hal] at he_lt
    simp at he_lt
  | some node =>
    cases node with
    | scalar v => unfold envsAligned at hal; rw [hek] at hal; simp at hal
    | mapping pairs => unfold envsAligned at hal; rw [hek] at hal; simp at hal
    | document items => unfold envsAligned at hal; rw [hek] at hal; simp at hal
    | sequence envNodes =>
      unfold envsAligned at hal
      rw [hek, Bool.and_eq_true] at hal
      obtain ⟨hlen, hall⟩ := hal
      rw [decide_eq_true_eq] at hlen
      rw [List.all_eq_true] at hall
      have he_lt' : e < envNodes.length := by omega
      have henv : cfg.Environments[e]? = some cfg.Environments[e] :=
        List.getElem?_eq_getElem he_lt
      set env := cfg.Environments[e] with henvdef
      have hrootml : root.isMapLike = true := isMapLike_of_getKey_some _ _ _ hek
      have hmem : envNodes.getD e (.mapping []) ∈ envNodes := by
        rw [List.getD_eq_getElem _ _ he_lt']
        exact List.getElem_mem he_lt'
      have hres0 := hall _ hmem
      have hrs : ∃ rs, getKey (envNodes.getD e (.mapping [])) "resources"
          = some (.sequence rs) := by
        cases hg : getKey (envNodes.getD e (.mapping [])) "resources" with
        | none => rw [hg] at hres0; simp at hres0
        | some n =>
          cases n with
          | sequence rs => exact ⟨rs, rfl⟩
          | scalar v => rw [hg] at hres0; simp at hres0
          | mapping pairs => rw [hg] at hres0; simp at hres0
          | document items => rw [hg] at hres0; simp at hres0
      obtain ⟨rs, hrs⟩ := hrs
      have hmain : upsertResource cP nP vP pP cfg root resource envName data d
          = ⟨(upsertEnvBody cP nP vP pP cfg resource envName data d
                (envNodes.getD e (.mapping [])) e).1,
             assignMap root "environments" (.sequence (envNodes.set e
               (upsertEnvBody cP nP vP pP cfg resource envName data d
                 (envNodes.getD e (.mapping [])) e).2.1)),
             (upsertEnvBody cP nP vP pP cfg resource envName data d
               (envNodes.getD e (.mapping [])) e).2.2⟩ := by
        simp only [upsertResource]
        rw [hek, hfind]
        simp only [Option.isNone_some, Bool.or_self, Bool.false_eq_true, if_false]
        rw [if_pos he_lt']
      have hfound2 : (findResourceIndexP cfg resource e).2
          = { cfg with Environments := (cfg.Environments.set e
              { env with Resources :=
                (findResourceScan resource env.Locations env.Resources).2 }) } := by
        unfold findResourceIndexP
        rw [if_neg (by omega), henv]
      have hspec := upsertEnvBody_spec cP nP vP pP cfg resource envName data d
        (envNodes.getD e (.mapping [])) e rs hrs
      have hdmatch : (inheritLocations env.Locations d).Match resource = true := by
        rw [inheritLocations_of_nonempty env.Locations d hloc]
        exact hmatch
      -- alignment of the result, shared by both cases
      have halres : ∀ (cfg2 : DeliveryConfig),
          cfg2.Environments.length = cfg.Environments.length →
          envsAligned cfg2
            (assignMap root "environments" (.sequence (envNodes.set e
              (upsertEnvBody cP nP vP pP cfg resource envName data d
                (envNodes.getD e (.mapping [])) e).2.1))) = true := by
        intro cfg2 hlen2
        unfold envsAligned
        rw [getKey_assignMap_same root "environments" _ hrootml]
        rw [Bool.and_eq_true]
        constructor
        · rw [decide_eq_true_eq, List.length_set]
          omega
        · rw [List.all_eq_true]
          intro x hx
          rcases List.mem_or_eq_of_mem_set hx with hx1 | hx2
          · exact hall x hx1
          · obtain ⟨rs2, hrs2⟩ := hspec.2.2
            rw [hx2, hrs2]
      cases hscan : env.Resources.findIdx?
          (fun x => (inheritLocations env.Locations x).Match resource) with
      | none =>
        have hfound1 : (findResourceIndexP cfg resource e).1 = none := by
          unfold findResourceIndexP
          rw [if_neg (by omega), henv]
          exact (findResourceScan_inherits resource env.Locations env.Resources).1.trans hscan
        have hbody := hspec.1 hfound1
        have hcfg2 : (upsertEnvBody cP nP vP pP cfg resource envName data d
            (envNodes.getD e (.mapping [])) e).1
            = { cfg with Environments := (cfg.Environments.set e
                { env with Resources :=
                  ((findResourceScan resource env.Locations env.Resources).2) ++ [d] }) } := by
          rw [hbody.1, hfound2]
          unfold modifyEnv
          rw [List.getElem?_set_self (by omega)]
          simp [List.set_set]
        rw [hmain]
        refine ⟨?_, e,
          { env with Resources :=
            ((findResourceScan resource env.Locations env.Resources).2) ++ [d] },
          env.Resources.length, ?_, ?_, ?_, ?_⟩
        · simp only [hcfg2]
          exact halres _ (by simp)
        · simp only [hcfg2]
          rw [findEnvIndex_set_same_name cfg envName e env
            ({ env with Resources :=
              ((findResourceScan resource env.Locations env.Resources).2) ++ [d] }) henv rfl]
          exact hfind
        · simp only [hcfg2]
          exact List.getElem?_set_self (by omega)
        · simp only []
          exact findIdx_after_append resource env.Locations env.Resources d hscan hdmatch
        · simp only []
          rw [← findResourceScan_length resource env.Locations env.Resources]
          exact List.getElem?_concat_length _ _
      | some ri =>
        have hri_lt : ri < env.Resources.length := by
          rcases List.findIdx?_eq_some_iff_getElem.mp hscan with ⟨h, _⟩
          exact h
        have hfound1 : (findResourceIndexP cfg resource e).1 = some ri := by
          unfold findResourceIndexP
          rw [if_neg (by omega), henv]
          exact (findResourceScan_inherits resource env.Locations env.Resources).1.trans hscan
        have hbody := hspec.2.1 ri hfound1
        have hcfg2 : (upsertEnvBody cP nP vP pP cfg resource envName data d
            (envNodes.getD e (.mapping [])) e).1
            = { cfg with Environments := (cfg.Environments.set e
                { env with Resources :=
                  ((findResourceScan resource env.Locations env.Resources).2).set ri d }) } := by
          rw [hbody.1, hfound2]
          unfold modifyEnv
          rw [List.getElem?_set_self (by omega)]
          simp [List.set_set]
        rw [hmain]
        refine ⟨?_, e,
          { env with Resources :=
            ((findResourceScan resource env.Locations env.Resources).2).set ri d },
          ri, ?_, ?_, ?_, ?_⟩
        · simp only [hcfg2]
          exact halres _ (by simp)
        · simp only [hcfg2]
          rw [findEnvIndex_set_same_name cfg envName e env
            ({ env with Resources :=
              ((findResourceScan resource env.Locations env.Resources).2).set ri d }) henv rfl]
          exact hfind
        · simp only [hcfg2]
          exact List.getElem?_set_self (by omega)
        · simp only []
          exact findIdx_after_replace resource env.Locations env.Resources d ri hscan hdmatch
        · simp only []
          apply List.getElem?_set_self
          rw [findResourceScan_length]
          omega

/-- First upsert for a name with no existing environment creates the
environment (in both views) holding exactly the parsed resource, and
returns `added = true`; `upsertPost` holds at the appended index. -/
theorem upsert_new_env_post (cP nP vP pP : String → DeliveryConfig → YNode)
    (cfg : DeliveryConfig) (root : YNode) (resource : ExportableResource)
    (envName : String) (data : YNode) (d : DeliveryResource)
    (hal : envsAligned cfg root = true)
    (hml : root.isMapLike = true)
    (hfind : findEnvIndex cfg envName = none)
    (hmatch : d.Match resource = true)
    (hloc : d.Spec.Locations.Empty = false) :
    upsertPost resource envName d
      (upsertResource cP nP vP pP cfg root resource envName data d)
    ∧ (upsertResource cP nP vP pP cfg root resource envName data d).added = true := by
  have hmain : upsertResource cP nP vP pP cfg root resource envName data d
      = ⟨{ cfg with Environments :=
            cfg.Environments ++ [{ Name := envName, Resources := [d] }] },
          assignMap root "environments"
            (appendNode ((getKey root "environments").getD (.sequence []))
              (newEnvironmentNode cP nP vP pP envName cfg data)),
          true⟩ := by
    simp only [upsertResource]
    rw [hfind]
    simp only [Option.isNone_none, Bool.or_true, if_true]
  have hnewres : getKey (newEnvironmentNode cP nP vP pP envName cfg data) "resources"
      = some (.sequence [data]) := by
    simp [newEnvironmentNode, getKey, lookupPairs, List.find?]
  have hfind' : findEnvIndex
      { cfg with Environments :=
          cfg.Environments ++ [{ Name := envName, Resources := [d] }] } envName
      = some cfg.Environments.length := by
    unfold findEnvIndex at hfind ⊢
    simp only [List.findIdx?_append, hfind, Option.none_or, List.findIdx?_cons]
    simp
  have hidx : ([d].findIdx? (fun x =>
      (inheritLocations ({ Name := envName, Resources := [d] }
        : DeliveryEnvironment).Locations x).Match resource)) = some 0 := by
    have : (inheritLocations ({ Name := envName, Resources := [d] }
        : DeliveryEnvironment).Locations d).Match resource = true := by
      rw [inheritLocations_of_nonempty _ d hloc]
      exact hmatch
    simp [List.findIdx?_cons, this]
  rw [hmain]
  refine ⟨⟨?_, cfg.Environments.length, { Name := envName, Resources := [d] }, 0,
    hfind', ?_, hidx, rfl⟩, rfl⟩
  · -- alignment of the result
    cases hek : getKey root "environments" with
    | none =>
      have hempty : cfg.Environments = [] := by
        unfold envsAligned at hal
        rw [hek, List.isEmpty_iff] at hal
        exact hal
      unfold envsAligned
      rw [getKey_assignMap_same root "environments" _ hml]
      simp only [hek, Option.getD_none, appendNode, hempty]
      rw [Bool.and_eq_true]
      exact ⟨by simp, by simp [hnewres]⟩
    | some node =>
      cases node with
      | scalar v => unfold envsAligned at hal; rw [hek] at hal; simp at hal
      | mapping pairs => unfold envsAligned at hal; rw [hek] at hal; simp at hal
      | document items => unfold envsAligned at hal; rw [hek] at hal; simp at hal
      | sequence envNodes =>
        unfold envsAligned at hal
        rw [hek, Bool.and_eq_true] at hal
        obtain ⟨hlen, hall⟩ := hal
        rw [decide_eq_true_eq] at hlen
        rw [List.all_eq_true] at hall
        unfold envsAligned
        rw [getKey_assignMap_same root "environments" _ hml]
        simp only [hek, Option.getD_some, appendNode]
        rw [Bool.and_eq_true]
        constructor
        · rw [decide_eq_true_eq]
          simp
          omega
        · rw [List.all_eq_true]
          intro x hx
          rcases List.mem_append.mp hx with hx1 | hx2
          · exact hall x hx1
          · rw [List.mem_singleton.mp hx2, hnewres]
  · exact List.getElem?_concat_length _ _

/-- `ResourceExists` is satisfied by any state in `upsertPost`. -/
theorem resourceExists_of_post (resource : ExportableResource) (envName : String)
    (d : DeliveryResource) (r : UpsertResult)
    (hpost : upsertPost resource envName d r) :
    resourceExists r.cfg resource = true := by
  obtain ⟨_, e, env, ix, _, henv, hidx, _⟩ := hpost
  unfold resourceExists
  rw [List.any_eq_true]
  refine ⟨env, List.getElem?_mem henv, ?_⟩
  rw [(findResourceScan_inherits resource env.Locations env.Resources).1.trans hidx]
  rfl

/-- C3: for well-formed states (raw/typed environment views aligned) and
well-formed content (the parsed resource matches the identity and carries
its own locations), `UpsertResource` makes `ResourceExists` true, and a
subsequent `UpsertResource` for the same identity and environment replaces
the entry in place: `added = false`, the environment count and the
environment's resource count are unchanged, and the entry at the same index
becomes the new content's resource instead of being appended. -/
theorem upsertResource_exists_and_replaces
    (cP nP vP pP : String → DeliveryConfig → YNode)
    (cfg : DeliveryConfig) (root : YNode) (resource : ExportableResource)
    (envName : String) (data data2 : YNode) (d d2 : DeliveryResource)
    (hal : envsAligned cfg root = true)
    (hml : root.isMapLike = true)
    (hmatch : d.Match resource = true)
    (hloc : d.Spec.Locations.Empty = false) :
    resourceExists
        (upsertResource cP nP vP pP cfg root resource envName data d).cfg resource = true
    ∧ (upsertResource cP nP vP pP
        (upsertResource cP nP vP pP cfg root resource envName data d).cfg
        (upsertResource cP nP vP pP cfg root resource envName data d).root
        resource envName data2 d2).added = false
    ∧ (upsertResource cP nP vP pP
        (upsertResource cP nP vP pP cfg root resource envName data d).cfg
        (upsertResource cP nP vP pP cfg root resource envName data d).root
        resource envName data2 d2).cfg.Environments.length
      = (upsertResource cP nP vP pP cfg root resource envName data d).cfg.Environments.length
    ∧ ∃ (e : Nat) (env1 env2 : DeliveryEnvironment) (ix : Nat),
        findEnvIndex (upsertResource cP nP vP pP cfg root resource envName data d).cfg envName
          = some e
        ∧ (upsertResource cP nP vP pP cfg root resource envName data d).cfg.Environments[e]?
          = some env1
        ∧ (upsertResource cP nP vP pP
            (upsertResource cP nP vP pP cfg root resource envName data d).cfg
            (upsertResource cP nP vP pP cfg root resource envName data d).root
            resource envName data2 d2).cfg.Environments[e]?
          = some env2
        ∧ env2.Resources.length = env1.Resources.length
        ∧ env1.Resources[ix]? = some d
        ∧ env2.Resources[ix]? = some d2 := by
  have hpost : upsertPost resource envName d
      (upsertResource cP nP vP pP cfg root resource envName data d) := by
    cases hfe : findEnvIndex cfg envName with
    | none =>
      exact (upsert_new_env_post cP nP vP pP cfg root resource envName data d
        hal hml hfe hmatch hloc).1
    | some e =>
      exact upsert_existing_env_post cP nP vP pP cfg root resource envName data d e
        hal hfe hmatch hloc
  have hsecond := upsert_second_replaces cP nP vP pP resource envName d
    (upsertResource cP nP vP pP cfg root resource envName data d) data2 d2 hpost
  exact ⟨resourceExists_of_post resource envName d _ hpost,
    hsecond.1, hsecond.2.1, hsecond.2.2⟩

/-- C3 witness: fresh empty document, a concrete cluster resource upserted
into `testing` twice. -/
theorem upsertResource_exists_and_replaces_witness :
    resourceExists
      (upsertResource (fun _ _ => .sequence []) (fun _ _ => .sequence [])
        (fun _ _ => .sequence []) (fun _ _ => .sequence [])
        {} (.document [.mapping []]) ⟨"cluster", "aws", "prod", "app"⟩ "testing"
        (.mapping [])
        { Kind := "ec2/cluster@v1",
          Spec := { Moniker := { App := "app" },
                    Locations := { Account := "prod" } } }).cfg
      ⟨"cluster", "aws", "prod", "app"⟩ = true
    ∧ (upsertResource (fun _ _ => .sequence []) (fun _ _ => .sequence [])
        (fun _ _ => .sequence []) (fun _ _ => .sequence [])
        (upsertResource (fun _ _ => .sequence []) (fun _ _ => .sequence [])
          (fun _ _ => .sequence []) (fun _ _ => .sequence [])
          {} (.document [.mapping []]) ⟨"cluster", "aws", "prod", "app"⟩ "testing"
          (.mapping [])
          { Kind := "ec2/cluster@v1",
            Spec := { Moniker := { App := "app" },
                      Locations := { Account := "prod" } } }).cfg
        (upsertResource (fun _ _ => .sequence []) (fun _ _ => .sequence [])
          (fun _ _ => .sequence []) (fun _ _ => .sequence [])
          {} (.document [.mapping []]) ⟨"cluster", "aws", "prod", "app"⟩ "testing"
          (.mapping [])
          { Kind := "ec2/cluster@v1",
            Spec := { Moniker := { App := "app" },
                      Locations := { Account := "prod" } } }).root
        ⟨"cluster", "aws", "prod", "app"⟩ "testing" (.scalar "v2")
        { Kind := "ec2/cluster@v1",
          Spec := { Moniker := { App := "app" },
                    Locations := { Account := "prod" },
                    ArtifactName := "app-v2" } }).added = false := by
  have h := upsertResource_exists_and_replaces
    (fun _ _ => .sequence []) (fun _ _ => .sequence [])
    (fun _ _ => .sequence []) (fun _ _ => .sequence [])
    {} (.document [.mapping []]) ⟨"cluster", "aws", "prod", "app"⟩ "testing"
    (.mapping []) (.scalar "v2")
    { Kind := "ec2/cluster@v1",
      Spec := { Moniker := { App := "app" },
                Locations := { Account := "prod" } } }
    { Kind := "ec2/cluster@v1",
      Spec := { Moniker := { App := "app" },
                Locations := { Account := "prod" },
                ArtifactName := "app-v2" } }
    (by decide) (by decide) (by decide) (by decide)
  exact ⟨h.1, h.2.1⟩

/-! ## `configKeySort` (deliveryconfig.go lines 422-473)

A mapping's `Content` alternates key scalars and value nodes; the pair list
of the `YNode.mapping` constructor is the same data at pair granularity,
and all moves the Go code performs (the priority swap and the adjacent
bubble swap act on a key/value pair as a unit) are transcribed on pairs.

Phase 1 walks `ConfigKeySortPriority`; for each key it searches the
unprocessed region from `start`, swaps the found pair to position `start`
(the pair previously at `start` moves to the found position) and advances
`start`.  `extractSwap` performs exactly this swap-extraction on the
unprocessed region.  Phase 2 bubble-sorts the remaining region by key until
a pass makes no swap; the pass is `bubblePass` and the until-no-swap loop
terminates because a swapping pass strictly reduces the inversion count. -/

/-- The key-priority list from the source. -/
def ConfigKeySortPriority : List String :=
  ["kind", "name", "type", "moniker", "artifactReference", "container",
   "locations", "application", "artifacts", "environments"]

/-- Find the first pair with key `key`; the displaced pair `repl` (from
position `start`) takes its position. -/
def replaceFirst (key : String) (repl : String × YNode) :
    List (String × YNode) → Option ((String × YNode) × List (String × YNode))
  | [] => none
  | q :: l =>
    if q.1 = key then some (q, repl :: l)
    else (replaceFirst key repl l).map (fun r => (r.1, q :: r.2))

/-- The swap of phase 1: extract the first pair with key `key` from the
unprocessed region, the head pair moving into the hole (a no-op move when
the head itself is the match, Go's `i == start` case). -/
def extractSwap (key : String) :
    List (String × YNode) → Option ((String × YNode) × List (String × YNode))
  | [] => none
  | p :: l => if p.1 = key then some (p, l) else replaceFirst key p l

/-- Phase 1 over the priority list: returns the selected front (in priority
order) and the unprocessed remainder. -/
def prioritizeGo : List String → List (String × YNode) →
    List (String × YNode) × List (String × YNode)
  | [], l => ([], l)
  | key :: keys, l =>
    match extractSwap key l with
    | none => prioritizeGo keys l
    | some r =>
      let pr := prioritizeGo keys r.2
      (r.1 :: pr.1, pr.2)

/-- One left-to-right pass of the crude bubble sort, swapping adjacent
pairs whose keys are out of order; the boolean reports whether any swap
happened. -/
def bubblePass : List (String × YNode) → List (String × YNode) × Bool
  | [] => ([], false)
  | [a] => ([a], false)
  | a :: b :: rest =>
    if goStrLt b.1 a.1 then
      let r := bubblePass (a :: rest)
      (b :: r.1, true)
    else
      let r := bubblePass (b :: rest)
      (a :: r.1, r.2)

/-- Number of out-of-order pairs, the termination measure of the
until-no-swap loop. -/
def pairInversions : List (String × YNode) → Nat
  | [] => 0
  | a :: rest => rest.countP (fun b => goStrLt b.1 a.1) + pairInversions rest

/-- A pass permutes; an unswapped pass is the identity; a swapping pass
strictly reduces the inversion count. -/
theorem bubblePass_spec : ∀ (l : List (String × YNode)),
    (bubblePass l).1.Perm l
    ∧ ((bubblePass l).2 = false → (bubblePass l).1 = l)
    ∧ ((bubblePass l).2 = true → pairInversions (bubblePass l).1 < pairInversions l)
  | [] => by refine ⟨?_, ?_, ?_⟩ <;> simp [bubblePass]
  | [a] => by refine ⟨?_, ?_, ?_⟩ <;> simp [bubblePass]
  | a :: b :: rest => by
    rcases bubblePass_spec (a :: rest) with ⟨ihp1, ihf1, ihi1⟩
    rcases bubblePass_spec (b :: rest) with ⟨ihp2, ihf2, ihi2⟩
    by_cases h : goStrLt b.1 a.1 = true
    · simp only [bubblePass, h, if_true]
      refine ⟨(ihp1.cons b).trans (List.Perm.swap a b rest), ?_, ?_⟩
      · intro hf
        cases hf
      · intro _
        have hasymm : goStrLt a.1 b.1 = false := by
          rw [Bool.eq_false_iff]
          intro hab
          rw [goStrLt_iff_lt] at h hab
          exact absurd (hab.trans h) (lt_irrefl _)
        have hcount : (bubblePass (a :: rest)).1.countP (fun x => goStrLt x.1 b.1)
            = List.countP (fun x => goStrLt x.1 b.1) rest := by
          rw [ihp1.countP_eq]
          simp [List.countP_cons, hasymm]
        have hinv1 : pairInversions (b :: (bubblePass (a :: rest)).1)
            = List.countP (fun x => goStrLt x.1 b.1) rest
              + pairInversions (bubblePass (a :: rest)).1 := by
          simp [pairInversions, hcount]
        have hinv2 : pairInversions (a :: b :: rest)
            = 1 + List.countP (fun x => goStrLt x.1 a.1) rest
              + (List.countP (fun x => goStrLt x.1 b.1) rest + pairInversions rest) := by
          simp [pairInversions, List.countP_cons, h]
          omega
        have hle : pairInversions (bubblePass (a :: rest)).1
            ≤ pairInversions (a :: rest) := by
          cases hs : (bubblePass (a :: rest)).2 with
          | false => rw [ihf1 hs]
          | true => exact Nat.le_of_lt (ihi1 hs)
        have hinv3 : pairInversions (a :: rest)
            = List.countP (fun x => goStrLt x.1 a.1) rest + pairInversions rest := rfl
        omega
    · rw [Bool.not_eq_true] at h
      simp only [bubblePass, h, Bool.false_eq_true, if_false]
      refine ⟨ihp2.cons a, ?_, ?_⟩
      · intro hf
        rw [ihf2 hf]
      · intro ht
        have hcount : (bubblePass (b :: rest)).1.countP (fun x => goStrLt x.1 a.1)
            = List.countP (fun x => goStrLt x.1 a.1) (b :: rest) := ihp2.countP_eq _
        have hinv1 : pairInversions (a :: (bubblePass (b :: rest)).1)
            = List.countP (fun x => goStrLt x.1 a.1) (b :: rest)
              + pairInversions (bubblePass (b :: rest)).1 := by
          simp [pairInversions, hcount]
        have hinv2 : pairInversions (a :: b :: rest)
            = List.countP (fun x => goStrLt x.1 a.1) (b :: rest)
              + pairInversions (b :: rest) := rfl
        have := ihi2 ht
        omega

/-- The until-no-swap loop of the crude bubble sort. -/
def bubbleSortPairs (l : List (String × YNode)) : List (String × YNode) :=
  let r := bubblePass l
  if h : r.2 = true then bubbleSortPairs r.1 else r.1
termination_by pairInversions l
decreasing_by exact (bubblePass_spec l).2.2 h

/-- The bubble loop permutes its input. -/
theorem bubbleSortPairs_perm (l : List (String × YNode)) :
    (bubbleSortPairs l).Perm l := by
  rw [bubbleSortPairs]
  split
  · exact (bubbleSortPairs_perm _).trans (bubblePass_spec l).1
  · exact (bubblePass_spec l).1
termination_by pairInversions l
decreasing_by exact (bubblePass_spec l).2.2 (by assumption)

/-- `replaceFirst` yields the matched pair and a permutation of the region
with the displaced pair in the hole. -/
theorem replaceFirst_perm (key : String) :
    ∀ (l : List (String × YNode)) (repl q : String × YNode)
      (l' : List (String × YNode)),
    replaceFirst key repl l = some (q, l') → (q :: l').Perm (repl :: l) ∧ q.1 = key
  | [], _, _, _, h => by cases h
  | p :: l, repl, q, l', h => by
    by_cases hp : p.1 = key
    · rw [replaceFirst, if_pos hp] at h
      cases h
      exact ⟨List.Perm.swap repl p l, hp⟩
    · rw [replaceFirst, if_neg hp] at h
      cases hrec : replaceFirst key repl l with
      | none => rw [hrec] at h; cases h
      | some r =>
        rw [hrec] at h
        cases h
        rcases replaceFirst_perm key l repl r.1 r.2 hrec with ⟨hperm, hkey⟩
        exact ⟨(List.Perm.swap p r.1 r.2).trans
          ((hperm.cons p).trans (List.Perm.swap repl p l)), hkey⟩

/-- `extractSwap` yields the matched pair and a permutation of the rest. -/
theorem extractSwap_perm (key : String) (l : List (String × YNode))
    (q : String × YNode) (l' : List (String × YNode))
    (h : extractSwap key l = some (q, l')) : (q :: l').Perm l ∧ q.1 = key := by
  cases l with
  | nil => cases h
  | cons p rest =>
    by_cases hp : p.1 = key
    · rw [extractSwap, if_pos hp] at h
      cases h
      exact ⟨List.Perm.refl _, hp⟩
    · rw [extractSwap, if_neg hp] at h
      exact replaceFirst_perm key rest p q l' h

/-- `extractSwap` fails exactly when no pair carries the key. -/
theorem extractSwap_eq_none_iff (key : String) :
    ∀ (l : List (String × YNode)),
    extractSwap key l = none ↔ ∀ q ∈ l, q.1 ≠ key := by
  have hrepl : ∀ (l : List (String × YNode)) (repl : String × YNode),
      replaceFirst key repl l = none ↔ ∀ q ∈ l, q.1 ≠ key := by
    intro l
    induction l with
    | nil => intro repl; simp [replaceFirst]
    | cons p rest ih =>
      intro repl
      by_cases hp : p.1 = key
      · simp [replaceFirst, hp]
      · simp only [replaceFirst, hp, if_false, Option.map_eq_none']
        rw [ih repl]
        constructor
        · intro hall q hq
          rcases List.mem_cons.mp hq with hq1 | hq2
          · rw [hq1]; exact hp
          · exact hall q hq2
        · intro hall q hq
          exact hall q (List.mem_cons_of_mem p hq)
  intro l
  cases l with
  | nil => simp [extractSwap]
  | cons p rest =>
    by_cases hp : p.1 = key
    · simp [extractSwap, hp]
    · simp only [extractSwap, hp, if_false]
      rw [hrepl rest p]
      constructor
      · intro hall q hq
        rcases List.mem_cons.mp hq with hq1 | hq2
        · rw [hq1]; exact hp
        · exact hall q hq2
      · intro hall q hq
        exact hall q (List.mem_cons_of_mem p hq)

/-- Permutations preserve `sizeOf` on pair lists (needed so the recursion
into values of the rearranged mapping is well-founded). -/
theorem perm_sizeOf_eq {l l' : List (String × YNode)} (h : l.Perm l') :
    sizeOf l = sizeOf l' := by
  induction h with
  | nil => rfl
  | cons x _ ih => simp only [List.cons.sizeOf_spec]; omega
  | swap x y l => simp only [List.cons.sizeOf_spec]; omega
  | trans _ _ ih1 ih2 => omega

/-- Phase 1 followed by phase 2: the rearranged pair list of one mapping. -/
def configKeySortPairs (pairs : List (String × YNode)) :
    List (String × YNode) :=
  let pr := prioritizeGo ConfigKeySortPriority pairs
  pr.1 ++ bubbleSortPairs pr.2

/-- `prioritizeGo` splits its input into a selected front and the
remainder, a permutation of the whole. -/
theorem prioritizeGo_perm : ∀ (keys : List String) (l : List (String × YNode)),
    ((prioritizeGo keys l).1 ++ (prioritizeGo keys l).2).Perm l
  | [], l => by simp [prioritizeGo]
  | key :: keys, l => by
    cases hx : extractSwap key l with
    | none =>
      simp only [prioritizeGo, hx]
      exact prioritizeGo_perm keys l
    | some r =>
      simp only [prioritizeGo, hx]
      rcases extractSwap_perm key l r.1 r.2 hx with ⟨hperm, _⟩
      exact ((prioritizeGo_perm keys r.2).cons r.1).trans hperm

/-- The whole rearrangement permutes the mapping's pairs. -/
theorem configKeySortPairs_perm (pairs : List (String × YNode)) :
    (configKeySortPairs pairs).Perm pairs := by
  unfold configKeySortPairs
  exact (List.Perm.append_left _ (bubbleSortPairs_perm _)).trans
    (prioritizeGo_perm ConfigKeySortPriority pairs)

/-- `configKeySort`: rearrange every mapping's pairs (priority keys first,
remaining keys bubble-sorted) and recurse into every value, sequence
element and document child. -/
def configKeySort : YNode → YNode
  | .scalar v => .scalar v
  | .mapping pairs =>
    .mapping ((configKeySortPairs pairs).attach.map
      (fun x => (x.1.1, configKeySort x.1.2)))
  | .sequence items => .sequence (items.attach.map (fun x => configKeySort x.1))
  | .document items => .document (items.attach.map (fun x => configKeySort x.1))
termination_by n => sizeOf n
decreasing_by
  all_goals simp_wf
  · rename_i pairs
    have hs := perm_sizeOf_eq (configKeySortPairs_perm pairs)
    have hmem := List.sizeOf_lt_of_mem x.2
    have hpair : sizeOf (x.1).2 < sizeOf x.1 := by
      rcases x with ⟨⟨k, v⟩, hx⟩
      simp
    omega
  · rename_i items
    have hmem := List.sizeOf_lt_of_mem x.2
    omega
  · rename_i items
    have hmem := List.sizeOf_lt_of_mem x.2
    omega

/-- The keys of a pair list, in order (the even-index `Content` entries of
the Go mapping node). -/
def keysOf (pairs : List (String × YNode)) : List String :=
  pairs.map (fun p => p.1)

/-- A pass that made no swap certifies adjacent order. -/
theorem bubblePass_false_chain : ∀ (l : List (String × YNode)),
    (bubblePass l).2 = false →
    List.Chain' (fun a b => goStrLt b.1 a.1 = false) l
  | [] => by intro _; simp
  | [a] => by intro _; simp
  | a :: b :: rest => by
    intro hf
    by_cases h : goStrLt b.1 a.1 = true
    · simp only [bubblePass, h, if_true] at hf
      cases hf
    · rw [Bool.not_eq_true] at h
      simp only [bubblePass, h, Bool.false_eq_true, if_false] at hf
      exact List.chain'_cons.mpr ⟨h, bubblePass_false_chain (b :: rest) hf⟩

/-- The bubble loop's output is adjacently ordered. -/
theorem bubbleSortPairs_chain (l : List (String × YNode)) :
    List.Chain' (fun a b => goStrLt b.1 a.1 = false) (bubbleSortPairs l) := by
  rw [bubbleSortPairs]
  split
  · exact bubbleSortPairs_chain _
  · rename_i h
    rw [Bool.not_eq_true] at h
    rw [(bubblePass_spec l).2.1 h]
    exact bubblePass_false_chain l h
termination_by pairInversions l
decreasing_by exact (bubblePass_spec l).2.2 (by assumption)

/-- The bubble loop's keys are sorted ascending. -/
theorem bubbleSortPairs_keys_sorted (l : List (String × YNode)) :
    List.Sorted (· ≤ ·) (keysOf (bubbleSortPairs l)) := by
  have hchain := bubbleSortPairs_chain l
  have hmap : List.Chain' (fun a b : String => a ≤ b)
      (keysOf (bubbleSortPairs l)) := by
    unfold keysOf
    refine List.chain'_map_of_chain' (fun p : String × YNode => p.1) ?_ hchain
    intro a b hab
    rw [Bool.eq_false_iff] at hab
    rw [← not_lt]
    intro hlt
    exact hab ((goStrLt_iff_lt b.1 a.1).mpr hlt)
  exact List.chain'_iff_pairwise.mp hmap

/-- Phase 1 characterization (for duplicate-free keys): the selected front
consists of exactly the priority keys present, in priority order, and no
remaining pair carries a priority key. -/
theorem prioritizeGo_spec : ∀ (keys : List String) (l : List (String × YNode)),
    keys.Nodup → (keysOf l).Nodup →
    keysOf (prioritizeGo keys l).1 = keys.filter (fun k => decide (k ∈ keysOf l))
    ∧ (∀ q ∈ (prioritizeGo keys l).2, q.1 ∉ keys)
  | [], l => by
    intro _ _
    exact ⟨by simp [prioritizeGo, keysOf], by simp [prioritizeGo]⟩
  | key :: keys, l => by
    intro hknd hlnd
    cases hx : extractSwap key l with
    | none =>
      have hnotin : key ∉ keysOf l := by
        have hall := (extractSwap_eq_none_iff key l).mp hx
        intro hmem
        rcases List.mem_map.mp hmem with ⟨q, hq, hqk⟩
        exact hall q hq hqk
      simp only [prioritizeGo, hx]
      rcases prioritizeGo_spec keys l (List.Nodup.of_cons hknd) hlnd with ⟨h1, h2⟩
      refine ⟨?_, ?_⟩
      · rw [List.filter_cons, if_neg (by simpa using hnotin)]
        exact h1
      · intro q hq hmem
        rcases List.mem_cons.mp hmem with hh | hh
        · apply hnotin
          have hql : q ∈ l := ((prioritizeGo_perm keys l).mem_iff).mp
            (List.mem_append_right _ hq)
          rw [← hh]
          exact List.mem_map.mpr ⟨q, hql, rfl⟩
        · exact h2 q hq hh
    | some r =>
      rcases extractSwap_perm key l r.1 r.2 hx with ⟨hperm, hkey⟩
      have hkperm : (key :: keysOf r.2).Perm (keysOf l) := by
        have hm := hperm.map (fun p : String × YNode => p.1)
        simpa [keysOf, hkey] using hm
      have hcons_nd : (key :: keysOf r.2).Nodup := (hkperm.nodup_iff).mpr hlnd
      have hnd2 : (keysOf r.2).Nodup := (List.nodup_cons.mp hcons_nd).2
      have hkey_not2 : key ∉ keysOf r.2 := (List.nodup_cons.mp hcons_nd).1
      have hkeyinl : key ∈ keysOf l :=
        (hkperm.mem_iff).mp (List.mem_cons_self _ _)
      have hkeynotkeys : key ∉ keys := (List.nodup_cons.mp hknd).1
      rcases prioritizeGo_spec keys r.2 (List.Nodup.of_cons hknd) hnd2 with ⟨h1, h2⟩
      simp only [prioritizeGo, hx]
      refine ⟨?_, ?_⟩
      · rw [List.filter_cons, if_pos (by simpa using hkeyinl)]
        have hfeq : keys.filter (fun k => decide (k ∈ keysOf r.2))
            = keys.filter (fun k => decide (k ∈ keysOf l)) := by
          apply List.filter_congr
          intro k hk
          have hkne : k ≠ key := fun hkk => hkeynotkeys (hkk ▸ hk)
          have : k ∈ keysOf l ↔ k ∈ keysOf r.2 := by
            rw [← hkperm.mem_iff]
            simp [List.mem_cons, hkne]
          simp [this]
        simp only [keysOf, List.map_cons]
        rw [hkey]
        have h1' : (prioritizeGo keys r.2).1.map (fun p => p.1)
            = keys.filter (fun k => decide (k ∈ keysOf l)) := by
          rw [← hfeq]
          exact h1
        rw [h1']
        rfl
      · intro q hq hmem
        rcases List.mem_cons.mp hmem with hh | hh
        · apply hkey_not2
          have hq2 : q ∈ r.2 := ((prioritizeGo_perm keys r.2).mem_iff).mp
            (List.mem_append_right _ hq)
          rw [← hh]
          exact List.mem_map.mpr ⟨q, hq2, rfl⟩
        · exact h2 q hq hh

/-- The claimed key layout of one sorted mapping: the keys of the fixed
priority list that occur, first and in the priority list's order, then all
remaining keys ascending, none of them priority keys. -/
def MappingKeyOrder (ks : List String) : Prop :=
  ∃ front back, ks = front ++ back
    ∧ front = ConfigKeySortPriority.filter (fun k => decide (k ∈ ks))
    ∧ (∀ k ∈ back, k ∉ ConfigKeySortPriority)
    ∧ List.Sorted (· ≤ ·) back

/-- The rearranged pairs of one mapping satisfy the claimed key layout
(given duplicate-free keys). -/
theorem configKeySortPairs_spec (pairs : List (String × YNode))
    (hnd : (keysOf pairs).Nodup) :
    MappingKeyOrder (keysOf (configKeySortPairs pairs)) := by
  have hprio_nd : ConfigKeySortPriority.Nodup := by decide
  rcases prioritizeGo_spec ConfigKeySortPriority pairs hprio_nd hnd with ⟨h1, h2⟩
  refine ⟨keysOf (prioritizeGo ConfigKeySortPriority pairs).1,
    keysOf (bubbleSortPairs (prioritizeGo ConfigKeySortPriority pairs).2), ?_, ?_, ?_, ?_⟩
  · unfold configKeySortPairs keysOf
    rw [List.map_append]
  · rw [h1]
    apply List.filter_congr
    intro k _
    have hmemiff : k ∈ keysOf (configKeySortPairs pairs) ↔ k ∈ keysOf pairs := by
      unfold keysOf
      constructor
      · intro hmem
        rcases List.mem_map.mp hmem with ⟨q, hq, hqk⟩
        exact List.mem_map.mpr ⟨q, ((configKeySortPairs_perm pairs).mem_iff).mp hq, hqk⟩
      · intro hmem
        rcases List.mem_map.mp hmem with ⟨q, hq, hqk⟩
        exact List.mem_map.mpr ⟨q, ((configKeySortPairs_perm pairs).mem_iff).mpr hq, hqk⟩
    simp [hmemiff]
  · intro k hk
    rcases List.mem_map.mp hk with ⟨q, hq, hqk⟩
    have hq2 : q ∈ (prioritizeGo ConfigKeySortPriority pairs).2 :=
      ((bubbleSortPairs_perm _).mem_iff).mp hq
    rw [← hqk]
    exact h2 q hq2
  · exact bubbleSortPairs_keys_sorted _

/-- The claimed recursive layout: every mapping of the tree satisfies
`MappingKeyOrder`, recursively through values, sequence elements and
document children. -/
inductive KeyOrderOK : YNode → Prop
  | scalar (v : String) : KeyOrderOK (.scalar v)
  | mapping (pairs : List (String × YNode)) :
      MappingKeyOrder (keysOf pairs) →
      (∀ p ∈ pairs, KeyOrderOK p.2) → KeyOrderOK (.mapping pairs)
  | sequence (items : List YNode) :
      (∀ x ∈ items, KeyOrderOK x) → KeyOrderOK (.sequence items)
  | document (items : List YNode) :
      (∀ x ∈ items, KeyOrderOK x) → KeyOrderOK (.document items)

mutual

/-- Well-formedness of a document tree: no mapping has a duplicate key
(`nodupKeysList` and `nodupKeysPairs` walk child lists). -/
def nodupKeys : YNode → Bool
  | .scalar _ => true
  | .mapping pairs => decide (keysOf pairs).Nodup && nodupKeysPairs pairs
  | .sequence items => nodupKeysList items
  | .document items => nodupKeysList items

/-- All children of a sequence or document node have duplicate-free keys. -/
def nodupKeysList : List YNode → Bool
  | [] => true
  | n :: rest => nodupKeys n && nodupKeysList rest

/-- All values of a mapping node have duplicate-free keys. -/
def nodupKeysPairs : List (String × YNode) → Bool
  | [] => true
  | p :: rest => nodupKeys p.2 && nodupKeysPairs rest

end

/-- Member access into `nodupKeysList`. -/
theorem nodupKeysList_mem : ∀ (items : List YNode), nodupKeysList items = true →
    ∀ x ∈ items, nodupKeys x = true
  | [], _, x, hx => by cases hx
  | n :: rest, h, x, hx => by
    rw [nodupKeysList, Bool.and_eq_true] at h
    rcases List.mem_cons.mp hx with hh | hh
    · rw [hh]; exact h.1
    · exact nodupKeysList_mem rest h.2 x hh

/-- Member access into `nodupKeysPairs`. -/
theorem nodupKeysPairs_mem : ∀ (pairs : List (String × YNode)),
    nodupKeysPairs pairs = true → ∀ p ∈ pairs, nodupKeys p.2 = true
  | [], _, p, hp => by cases hp
  | q :: rest, h, p, hp => by
    rw [nodupKeysPairs, Bool.and_eq_true] at h
    rcases List.mem_cons.mp hp with hh | hh
    · rw [hh]; exact h.1
    · exact nodupKeysPairs_mem rest h.2 p hh

/-- C5: on every document tree without duplicate mapping keys,
`configKeySort` reorders every mapping so that the present keys of the
fixed priority list come first in that list's order, followed by all
remaining (non-priority) keys in ascending lexicographic order, and applies
the same rule recursively to every nested mapping, sequence element and
document child. -/
theorem configKeySort_keyOrder : ∀ (n : YNode),
    nodupKeys n = true → KeyOrderOK (configKeySort n)
  | .scalar v => by
    intro _
    simp only [configKeySort]
    exact KeyOrderOK.scalar v
  | .mapping pairs => by
    intro hnd
    rw [nodupKeys, Bool.and_eq_true] at hnd
    obtain ⟨hnd1, hnd2⟩ := hnd
    simp only [configKeySort]
    apply KeyOrderOK.mapping
    · have hkeys : keysOf ((configKeySortPairs pairs).attach.map
          (fun x => ((x.1).1, configKeySort (x.1).2)))
          = keysOf (configKeySortPairs pairs) := by
        unfold keysOf
        rw [List.map_map]
        exact List.attach_map_val (configKeySortPairs pairs) (fun p => p.1)
      rw [hkeys]
      exact configKeySortPairs_spec pairs (of_decide_eq_true hnd1)
    · intro p hp
      rcases List.mem_map.mp hp with ⟨x, hx, hpx⟩
      rw [← hpx]
      have hxmem : x.1 ∈ pairs := ((configKeySortPairs_perm pairs).mem_iff).mp x.2
      exact configKeySort_keyOrder (x.1).2 (nodupKeysPairs_mem pairs hnd2 x.1 hxmem)
  | .sequence items => by
    intro hnd
    rw [nodupKeys] at hnd
    simp only [configKeySort]
    apply KeyOrderOK.sequence
    intro y hy
    rcases List.mem_map.mp hy with ⟨x, hx, hyx⟩
    rw [← hyx]
    exact configKeySort_keyOrder x.1 (nodupKeysList_mem items hnd x.1 x.2)
  | .document items => by
    intro hnd
    rw [nodupKeys] at hnd
    simp only [configKeySort]
    apply KeyOrderOK.document
    intro y hy
    rcases List.mem_map.mp hy with ⟨x, hx, hyx⟩
    rw [← hyx]
    exact configKeySort_keyOrder x.1 (nodupKeysList_mem items hnd x.1 x.2)
termination_by n => sizeOf n
decreasing_by
  all_goals simp_wf
  · have hs := perm_sizeOf_eq (configKeySortPairs_perm pairs)
    have hmem := List.sizeOf_lt_of_mem x.2
    have hpair : sizeOf (x.1).2 < sizeOf x.1 := by
      rcases x with ⟨⟨k, v⟩, hxx⟩
      simp
    omega
  · have hmem := List.sizeOf_lt_of_mem x.2
    omega
  · have hmem := List.sizeOf_lt_of_mem x.2
    omega

/-- C5 witness: a concrete mapping containing `kind`, `name` and an
alphabetically earlier unlisted key, nested in a document. -/
theorem configKeySort_keyOrder_witness :
    nodupKeys (YNode.document [.mapping
      [("account", .scalar "x"), ("name", .scalar "n"), ("kind", .scalar "k")]]) = true
    ∧ KeyOrderOK (configKeySort (YNode.document [.mapping
      [("account", .scalar "x"), ("name", .scalar "n"), ("kind", .scalar "k")]])) :=
  ⟨by decide, configKeySort_keyOrder _ (by decide)⟩

/-! ## Round-trip behaviour of the formatting pass (`Save` after `Load`)

The byte emission itself lives in gopkg.in/yaml.v3; what the repository
controls is the tree handed to the encoder: `savePrepare` (the defaulting)
followed by `configKeySort` (the reordering), with the intermediate
marshal/unmarshal round-trip acting as the identity on the tree.  A
document reproduces its bytes only if this tree transformation leaves its
parse tree unchanged. -/

/-- Computable check that a key list is ascending (adjacent comparisons by
the Go string order). -/
def sortedKeysB : List String → Bool
  | [] => true
  | [_] => true
  | a :: b :: rest => !(goStrLt b a) && sortedKeysB (b :: rest)

mutual

/-- Computable check that a tree is already in saved key order: every
mapping lists its priority keys first (in priority order) followed by its
non-priority keys ascending, recursively. -/
def keyOrdered : YNode → Bool
  | .scalar _ => true
  | .mapping pairs =>
    decide (keysOf pairs
      = ConfigKeySortPriority.filter (fun k => decide (k ∈ keysOf pairs))
        ++ (keysOf pairs).filter (fun k => decide (k ∉ ConfigKeySortPriority)))
    && sortedKeysB ((keysOf pairs).filter (fun k => decide (k ∉ ConfigKeySortPriority)))
    && keyOrderedPairs pairs
  | .sequence items => keyOrderedList items
  | .document items => keyOrderedList items

/-- All children of a sequence or document node are in saved key order. -/
def keyOrderedList : List YNode → Bool
  | [] => true
  | n :: rest => keyOrdered n && keyOrderedList rest

/-- All values of a mapping node are in saved key order. -/
def keyOrderedPairs : List (String × YNode) → Bool
  | [] => true
  | p :: rest => keyOrdered p.2 && keyOrderedPairs rest

end

/-- Member access into `keyOrderedList`. -/
theorem keyOrderedList_mem : ∀ (items : List YNode), keyOrderedList items = true →
    ∀ x ∈ items, keyOrdered x = true
  | [], _, x, hx => by cases hx
  | n :: rest, h, x, hx => by
    rw [keyOrderedList, Bool.and_eq_true] at h
    rcases List.mem_cons.mp hx with hh | hh
    · rw [hh]; exact h.1
    · exact keyOrderedList_mem rest h.2 x hh

/-- Member access into `keyOrderedPairs`. -/
theorem keyOrderedPairs_mem : ∀ (pairs : List (String × YNode)),
    keyOrderedPairs pairs = true → ∀ p ∈ pairs, keyOrdered p.2 = true
  | [], _, p, hp => by cases hp
  | q :: rest, h, p, hp => by
    rw [keyOrderedPairs, Bool.and_eq_true] at h
    rcases List.mem_cons.mp hp with hh | hh
    · rw [hh]; exact h.1
    · exact keyOrderedPairs_mem rest h.2 p hh

/-- A pair list whose keys pass `sortedKeysB` is adjacently ordered. -/
theorem chain_of_sortedKeysB : ∀ (l : List (String × YNode)),
    sortedKeysB (keysOf l) = true →
    List.Chain' (fun a b => goStrLt b.1 a.1 = false) l
  | [] => by intro _; simp
  | [a] => by intro _; simp
  | a :: b :: rest => by
    intro h
    have h' : (!(goStrLt b.1 a.1) && sortedKeysB (keysOf (b :: rest))) = true := h
    rw [Bool.and_eq_true, Bool.not_eq_eq_eq_not] at h'
    exact List.chain'_cons.mpr ⟨h'.1, chain_of_sortedKeysB (b :: rest) h'.2⟩

/-- A pass over an adjacently ordered list makes no swap and no change. -/
theorem bubblePass_id_of_chain : ∀ (l : List (String × YNode)),
    List.Chain' (fun a b => goStrLt b.1 a.1 = false) l →
    bubblePass l = (l, false)
  | [] => by intro _; simp [bubblePass]
  | [a] => by intro _; simp [bubblePass]
  | a :: b :: rest => by
    intro h
    rcases List.chain'_cons.mp h with ⟨hab, hrest⟩
    simp only [bubblePass, hab, Bool.false_eq_true, if_false,
      bubblePass_id_of_chain (b :: rest) hrest]

/-- The bubble loop is the identity on an adjacently ordered list. -/
theorem bubbleSortPairs_id_of_chain (l : List (String × YNode))
    (h : List.Chain' (fun a b => goStrLt b.1 a.1 = false) l) :
    bubbleSortPairs l = l := by
  rw [bubbleSortPairs, bubblePass_id_of_chain l h]
  simp

/-- Phase 1 is the identity split on a list already laid out as "selected
priority keys ++ remainder without priority keys". -/
theorem prioritizeGo_id : ∀ (keys : List String) (l1 l2 : List (String × YNode)),
    keys.Nodup → (keysOf (l1 ++ l2)).Nodup →
    keysOf l1 = keys.filter (fun k => decide (k ∈ keysOf (l1 ++ l2))) →
    (∀ q ∈ l2, q.1 ∉ keys) →
    prioritizeGo keys (l1 ++ l2) = (l1, l2)
  | [], l1, l2 => by
    intro _ _ h1 _
    have hnil : l1 = [] := by
      cases l1 with
      | nil => rfl
      | cons p rest => simp [keysOf] at h1
    rw [hnil]
    simp [prioritizeGo]
  | key :: keys, l1, l2 => by
    intro hknd hlnd h1 h2
    have hkeynot : key ∉ keys := (List.nodup_cons.mp hknd).1
    by_cases hmem : key ∈ keysOf (l1 ++ l2)
    · rw [List.filter_cons, if_pos (by simpa using hmem)] at h1
      cases l1 with
      | nil => simp [keysOf] at h1
      | cons p0 rest =>
        have hp0 : p0.1 = key := by
          have := congrArg (fun l => l.headD "") h1
          simpa [keysOf] using this
        have hrest : keysOf rest
            = keys.filter (fun k => decide (k ∈ keysOf (p0 :: rest ++ l2))) := by
          have := congrArg List.tail h1
          simpa [keysOf] using this
        have hx : extractSwap key ((p0 :: rest) ++ l2) = some (p0, rest ++ l2) := by
          rw [List.cons_append, extractSwap, if_pos hp0]
        simp only [hx, prioritizeGo]
        have hcons : keysOf (p0 :: (rest ++ l2)) = p0.1 :: keysOf (rest ++ l2) := rfl
        have hlnd2 : (p0.1 :: keysOf (rest ++ l2)).Nodup := by
          rw [← hcons]
          exact hlnd
        have hlnd' : (keysOf (rest ++ l2)).Nodup := (List.nodup_cons.mp hlnd2).2
        have hkeyrest : key ∉ keysOf (rest ++ l2) := by
          rw [← hp0]
          exact (List.nodup_cons.mp hlnd2).1
        have hrest' : keysOf rest
            = keys.filter (fun k => decide (k ∈ keysOf (rest ++ l2))) := by
          rw [hrest]
          apply List.filter_congr
          intro k hk
          have hkne : k ≠ key := fun hkk => hkeynot (hkk ▸ hk)
          have hiff : k ∈ keysOf ((p0 :: rest) ++ l2) ↔ k ∈ keysOf (rest ++ l2) := by
            rw [List.cons_append, hcons, List.mem_cons, hp0]
            constructor
            · rintro (hkk | hmm)
              · exact absurd hkk hkne
              · exact hmm
            · exact fun hmm => Or.inr hmm
          rw [decide_eq_decide]
          exact hiff
        have h2' : ∀ q ∈ l2, q.1 ∉ keys := by
          intro q hq hqk
          exact h2 q hq (List.mem_cons_of_mem key hqk)
        rw [prioritizeGo_id keys rest l2 (List.Nodup.of_cons hknd) hlnd' hrest' h2']
    · rw [List.filter_cons, if_neg (by simpa using hmem)] at h1
      have hx : extractSwap key (l1 ++ l2) = none := by
        rw [extractSwap_eq_none_iff]
        intro q hq hqk
        exact hmem (List.mem_map.mpr ⟨q, hq, hqk⟩)
      simp only [hx, prioritizeGo]
      have h2' : ∀ q ∈ l2, q.1 ∉ keys := by
        intro q hq hqk
        exact h2 q hq (List.mem_cons_of_mem key hqk)
      exact prioritizeGo_id keys l1 l2 (List.Nodup.of_cons hknd) hlnd h1 h2'


/-- Keys of a take are a take of the keys. -/
theorem keysOf_take (pairs : List (String × YNode)) (m : Nat) :
    keysOf (pairs.take m) = (keysOf pairs).take m := by
  unfold keysOf
  simp [List.map_take]

/-- Keys of a drop are a drop of the keys. -/
theorem keysOf_drop (pairs : List (String × YNode)) (m : Nat) :
    keysOf (pairs.drop m) = (keysOf pairs).drop m := by
  unfold keysOf
  simp [List.map_drop]

/-- The mapping rearrangement is the identity on a duplicate-free pair list
already in saved key order. -/
theorem configKeySortPairs_id (pairs : List (String × YNode))
    (hnodup : (keysOf pairs).Nodup)
    (heq : keysOf pairs
      = ConfigKeySortPriority.filter (fun k => decide (k ∈ keysOf pairs))
        ++ (keysOf pairs).filter (fun k => decide (k ∉ ConfigKeySortPriority)))
    (hsort : sortedKeysB ((keysOf pairs).filter
        (fun k => decide (k ∉ ConfigKeySortPriority))) = true) :
    configKeySortPairs pairs = pairs := by
  obtain ⟨A, hA⟩ : ∃ A, A = ConfigKeySortPriority.filter
      (fun k => decide (k ∈ keysOf pairs)) := ⟨_, rfl⟩
  obtain ⟨B, hB⟩ : ∃ B, B = (keysOf pairs).filter
      (fun k => decide (k ∉ ConfigKeySortPriority)) := ⟨_, rfl⟩
  rw [← hA, ← hB] at heq
  rw [← hB] at hsort
  have hsplit := List.take_append_drop A.length pairs
  have hk1 : keysOf (pairs.take A.length) = A := by
    rw [keysOf_take, heq, List.take_left]
  have hk2 : keysOf (pairs.drop A.length) = B := by
    rw [keysOf_drop, heq, List.drop_left]
  have hpr : prioritizeGo ConfigKeySortPriority
      (pairs.take A.length ++ pairs.drop A.length)
      = (pairs.take A.length, pairs.drop A.length) := by
    apply prioritizeGo_id
    · decide
    · rw [hsplit]
      exact hnodup
    · rw [hsplit, ← hA]
      exact hk1
    · intro q hq hqk
      have hqm : q.1 ∈ keysOf (pairs.drop A.length) :=
        List.mem_map.mpr ⟨q, hq, rfl⟩
      rw [hk2, hB] at hqm
      exact absurd hqk (of_decide_eq_true (List.mem_filter.mp hqm).2)
  have hbub : bubbleSortPairs (pairs.drop A.length) = pairs.drop A.length := by
    apply bubbleSortPairs_id_of_chain
    apply chain_of_sortedKeysB
    rw [hk2]
    exact hsort
  conv_lhs => rw [← hsplit]
  simp only [configKeySortPairs]
  rw [hpr]
  show pairs.take A.length ++ bubbleSortPairs (pairs.drop A.length) = pairs
  rw [hbub]
  exact hsplit

/-- The whole reordering is the identity on a duplicate-free tree already
in saved key order. -/
theorem configKeySort_id : ∀ (n : YNode),
    nodupKeys n = true → keyOrdered n = true → configKeySort n = n
  | .scalar v => by
    intro _ _
    simp [configKeySort]
  | .mapping pairs => by
    intro hnd hord
    rw [nodupKeys, Bool.and_eq_true] at hnd
    rw [keyOrdered, Bool.and_eq_true, Bool.and_eq_true] at hord
    obtain ⟨⟨heqB, hsortB⟩, hvals⟩ := hord
    have hcsp : configKeySortPairs pairs = pairs :=
      configKeySortPairs_id pairs (of_decide_eq_true hnd.1)
        (of_decide_eq_true heqB) hsortB
    simp only [configKeySort]
    rw [hcsp]
    have hmap : pairs.attach.map (fun x => ((x.1).1, configKeySort (x.1).2))
        = pairs.attach.map (fun x => x.1) := by
      apply List.map_congr_left
      intro x hx
      rw [configKeySort_id (x.1).2 (nodupKeysPairs_mem pairs hnd.2 x.1 x.2)
        (keyOrderedPairs_mem pairs hvals x.1 x.2)]
    rw [hmap]
    congr 1
    simp
  | .sequence items => by
    intro hnd hord
    rw [nodupKeys] at hnd
    rw [keyOrdered] at hord
    simp only [configKeySort]
    have hmap : items.attach.map (fun x => configKeySort x.1)
        = items.attach.map (fun x => x.1) := by
      apply List.map_congr_left
      intro x hx
      rw [configKeySort_id x.1 (nodupKeysList_mem items hnd x.1 x.2)
        (keyOrderedList_mem items hord x.1 x.2)]
    rw [hmap]
    congr 1
    simp
  | .document items => by
    intro hnd hord
    rw [nodupKeys] at hnd
    rw [keyOrdered] at hord
    simp only [configKeySort]
    have hmap : items.attach.map (fun x => configKeySort x.1)
        = items.attach.map (fun x => x.1) := by
      apply List.map_congr_left
      intro x hx
      rw [configKeySort_id x.1 (nodupKeysList_mem items hnd x.1 x.2)
        (keyOrderedList_mem items hord x.1 x.2)]
    rw [hmap]
    congr 1
    simp
termination_by n => sizeOf n
decreasing_by
  all_goals simp_wf
  · have hmem := List.sizeOf_lt_of_mem x.2
    have hpair : sizeOf (x.1).2 < sizeOf x.1 := by
      rcases x with ⟨⟨k, v⟩, hxx⟩
      simp
    omega
  · have hmem := List.sizeOf_lt_of_mem x.2
    omega
  · have hmem := List.sizeOf_lt_of_mem x.2
    omega

/-- C9 counterexample: a loaded document lacking the `artifacts` key is not
reproduced by an immediate save — the defaulting pass inserts an empty
`artifacts` sequence, so the tree handed to the encoder (and hence the
emitted bytes) differs from the loaded document. -/
theorem saveTransform_not_id :
    hasKey (YNode.document [.mapping [("application", .scalar "myapp")]])
      "artifacts" = false
    ∧ configKeySort (savePrepare "myapp"
        (YNode.document [.mapping [("application", .scalar "myapp")]]))
      ≠ YNode.document [.mapping [("application", .scalar "myapp")]] := by
  constructor
  · decide
  · have h1 : savePrepare "myapp"
        (YNode.document [.mapping [("application", .scalar "myapp")]])
        = YNode.document [.mapping [("application", .scalar "myapp"),
            ("artifacts", .sequence [])]] := rfl
    have h2 : configKeySort (YNode.document [.mapping
        [("application", .scalar "myapp"), ("artifacts", .sequence [])]])
        = YNode.document [.mapping [("application", .scalar "myapp"),
            ("artifacts", .sequence [])]] :=
      configKeySort_id _ (by decide) (by decide)
    rw [h1, h2]
    intro hcontra
    simp at hcontra

/-- C9 (amended): the tree transformation `Save` applies before encoding
(the `application`/`artifacts` defaulting followed by the key-priority
sort) is the identity precisely on documents already in saved form: the
`artifacts` key present, the `application` key present (or no app name
configured), no duplicate mapping keys, and every mapping's keys already
laid out as present priority keys in priority order followed by the
remaining keys in ascending lexicographic order.  On such documents a load
followed immediately by a save hands the encoder the loaded tree unchanged;
a document missing `artifacts`, missing `application` (with an app name
set), or with keys in any other order is rewritten. -/
theorem saveTransform_id_on_saved_form (appName : String) (root : YNode)
    (hart : hasKey root "artifacts" = true)
    (happ : hasKey root "application" = true ∨ appName = "")
    (hnd : nodupKeys root = true)
    (hord : keyOrdered root = true) :
    configKeySort (savePrepare appName root) = root := by
  have hsp : savePrepare appName root = root := by
    rcases happ with h | h
    · simp [savePrepare, h, hart]
    · simp [savePrepare, h, hart]
  rw [hsp]
  exact configKeySort_id root hnd hord

/-- C9 witness: a concrete saved-form document (priority keys first and in
priority order in every mapping, `application` and `artifacts` present, no
duplicate keys) is a fixed point of the save-time tree transformation. -/
theorem saveTransform_id_on_saved_form_witness :
    hasKey (YNode.document [.mapping [("application", .scalar "myapp"),
      ("artifacts", .sequence []),
      ("environments", .sequence [.mapping [("name", .scalar "testing"),
        ("resources", .sequence [])]])]]) "artifacts" = true
    ∧ hasKey (YNode.document [.mapping [("application", .scalar "myapp"),
      ("artifacts", .sequence []),
      ("environments", .sequence [.mapping [("name", .scalar "testing"),
        ("resources", .sequence [])]])]]) "application" = true
    ∧ nodupKeys (YNode.document [.mapping [("application", .scalar "myapp"),
      ("artifacts", .sequence []),
      ("environments", .sequence [.mapping [("name", .scalar "testing"),
        ("resources", .sequence [])]])]]) = true
    ∧ keyOrdered (YNode.document [.mapping [("application", .scalar "myapp"),
      ("artifacts", .sequence []),
      ("environments", .sequence [.mapping [("name", .scalar "testing"),
        ("resources", .sequence [])]])]]) = true
    ∧ configKeySort (savePrepare "myapp"
        (YNode.document [.mapping [("application", .scalar "myapp"),
          ("artifacts", .sequence []),
          ("environments", .sequence [.mapping [("name", .scalar "testing"),
            ("resources", .sequence [])]])]]))
      = YNode.document [.mapping [("application", .scalar "myapp"),
          ("artifacts", .sequence []),
          ("environments", .sequence [.mapping [("name", .scalar "testing"),
            ("resources", .sequence [])]])]] :=
  ⟨by decide, by decide, by decide, by decide,
   saveTransform_id_on_saved_form "myapp" _ (by decide) (Or.inl (by decide))
     (by decide) (by decide)⟩
